import Mathlib

/-!
Verification development for the `containerize` sandboxed-execution engine
(`src/containerize.py`).  The Python code is shallowly embedded: byte strings
and paths are `List Char`, the filesystem is an association list from paths to
contents, and each Python function is translated into a Lean function whose
structure mirrors the source line by line (line numbers are cited in comments).
A cryptographic hash state is modelled by the list of byte strings fed to
`update`; the hex digest is an injective encoding of their concatenation,
which reflects `hashlib` under the standard collision-freeness idealization
(equal update streams give equal digests, and the model makes distinct
concatenations give distinct digests).
-/

namespace Cz

/-- Byte strings (and paths) are lists of characters. -/
abbrev Str := List Char

instance instDecEqExcept {ε α : Type} [DecidableEq ε] [DecidableEq α] :
    DecidableEq (Except ε α)
  | .error x, .error y =>
    if h : x = y then .isTrue (by rw [h]) else .isFalse (by simp [h])
  | .error _, .ok _ => .isFalse (by simp)
  | .ok _, .error _ => .isFalse (by simp)
  | .ok x, .ok y =>
    if h : x = y then .isTrue (by rw [h]) else .isFalse (by simp [h])

/-- A flat filesystem: an association list from path to file contents.
Directories are not reified; `os.makedirs` is a no-op in the model. -/
abbrev FS := List (Str × Str)

/-- Read a file: the first binding of the path, as `open(p, 'rb')`. -/
def fsRead : FS → Str → Option Str
  | [], _ => none
  | (q, c) :: fs, p => if q = p then some c else fsRead fs p

/-- Erase every binding of a path, as `os.remove`. -/
def fsErase : FS → Str → FS
  | [], _ => []
  | (q, c) :: fs, p => if q = p then fsErase fs p else (q, c) :: fsErase fs p

/-- Create or overwrite a file, as writing through a file handle. -/
def fsWrite (fs : FS) (p : Str) (c : Str) : FS := (p, c) :: fsErase fs p

/-- `os.replace` / `os.rename`: move `src` over `dst` (no-op if `src` absent). -/
def fsRename (fs : FS) (src dst : Str) : FS :=
  match fsRead fs src with
  | none => fs
  | some c => fsWrite (fsErase fs src) dst c

theorem fsRead_fsErase (fs : FS) (p q : Str) :
    fsRead (fsErase fs p) q = if q = p then none else fsRead fs q := by
  induction fs with
  | nil => simp [fsErase, fsRead]
  | cons e fs ih =>
    obtain ⟨r, c⟩ := e
    by_cases hrp : r = p <;> by_cases hrq : r = q <;> simp_all [fsErase, fsRead]

theorem fsRead_fsWrite (fs : FS) (p c q) :
    fsRead (fsWrite fs p c) q = if q = p then some c else fsRead fs q := by
  by_cases h : q = p
  · simp [fsWrite, fsRead, h]
  · have h' : p ≠ q := fun hh => h hh.symm
    simp [fsWrite, fsRead, h, h', fsRead_fsErase]

theorem fsRead_fsWrite_self (fs : FS) (p c) :
    fsRead (fsWrite fs p c) p = some c := by
  simp [fsRead_fsWrite]

theorem fsRead_fsWrite_ne (fs : FS) (p c q) (h : q ≠ p) :
    fsRead (fsWrite fs p c) q = fsRead fs q := by
  simp [fsRead_fsWrite, h]

theorem fsErase_of_fsRead_none (fs : FS) (p : Str) (h : fsRead fs p = none) :
    fsErase fs p = fs := by
  induction fs with
  | nil => simp [fsErase]
  | cons e fs ih =>
    obtain ⟨r, c⟩ := e
    by_cases hrp : r = p
    · simp [fsRead, hrp] at h
    · simp [fsRead, hrp] at h
      simp [fsErase, hrp, ih h]

theorem fsErase_fsWrite_self (fs : FS) (p c) (h : fsRead fs p = none) :
    fsErase (fsWrite fs p c) p = fs := by
  simp [fsWrite, fsErase, fsErase_of_fsRead_none fs p h]

/-- `os.path.join` for relative components (absolute second arguments do not
occur in the modelled joins). -/
def pjoin (a b : Str) : Str := if a = [] then b else a ++ '/' :: b

/-- The deterministic stand-in for `tempfile.NamedTemporaryFile(dir=dirname(dst))`:
a fresh sibling name derived from the destination. -/
def tmpName (dst : Str) : Str := dst ++ ".tmp".toList

theorem tmpName_ne (dst : Str) : tmpName dst ≠ dst := by
  intro h
  have := congrArg List.length h
  simp [tmpName] at this

/-- Does `p` start with `pre`? (used to reason about cache-internal paths). -/
def startsWithStr : Str → Str → Bool
  | [], _ => true
  | _ :: _, [] => false
  | a :: as, b :: bs => a = b && startsWithStr as bs

theorem startsWithStr_append (a b : Str) : startsWithStr a (a ++ b) = true := by
  induction a with
  | nil => simp [startsWithStr]
  | cons x xs ih => simp [startsWithStr, ih]

theorem ne_of_startsWithStr_false (pre p : Str)
    (h : startsWithStr pre p = false) (t : Str) : p ≠ pre ++ t := by
  intro hp
  rw [hp, startsWithStr_append] at h
  simp at h

/-- Split a character list at every occurrence of `sep`, like `str.split(sep)`
for a one-character separator: `splitOnChar ' ' "a b" = ["a", "b"]`. -/
def splitOnChar (sep : Char) : Str → List Str
  | [] => [[]]
  | c :: cs =>
    if c = sep then [] :: splitOnChar sep cs
    else
      match splitOnChar sep cs with
      | [] => [[c]]
      | l :: ls => (c :: l) :: ls

theorem splitOnChar_ne_nil (sep : Char) (s : Str) : splitOnChar sep s ≠ [] := by
  cases s with
  | nil => simp [splitOnChar]
  | cons c cs =>
    by_cases h : c = sep <;> simp only [splitOnChar, h, if_pos, if_neg] <;> try simp
    cases hs : splitOnChar sep cs <;> simp

theorem splitOnChar_append_sep (sep : Char) (s rest : Str) (h : sep ∉ s) :
    splitOnChar sep (s ++ sep :: rest) = s :: splitOnChar sep rest := by
  induction s with
  | nil => simp [splitOnChar]
  | cons c cs ih =>
    simp only [List.mem_cons, not_or] at h
    obtain ⟨hc, hcs⟩ := h
    have hc' : ¬c = sep := fun hh => hc hh.symm
    simp only [List.cons_append, splitOnChar, if_neg hc']
    rw [show cs.append (sep :: rest) = cs ++ sep :: rest from rfl, ih hcs]

theorem splitOnChar_of_not_mem (sep : Char) (s : Str) (h : sep ∉ s) :
    splitOnChar sep s = [s] := by
  induction s with
  | nil => simp [splitOnChar]
  | cons c cs ih =>
    simp only [List.mem_cons, not_or] at h
    obtain ⟨hc, hcs⟩ := h
    have hc' : ¬c = sep := fun hh => hc hh.symm
    simp only [splitOnChar, if_neg hc', ih hcs]

/-- Python text-file line iteration followed by `rstrip('\n')`
(`containerize.py:236-237`): the chunks between newlines, with the empty
chunk a terminating newline produces dropped. -/
def fileLines (content : Str) : List Str :=
  let parts := splitOnChar '\n' content
  if parts.getLast? = some [] then parts.dropLast else parts

/-- Serialization of one manifest record (`containerize.py:217-219`). -/
def manifestLine (dig mt name : Str) : Str :=
  dig ++ ' ' :: mt ++ ' ' :: name ++ ['\n']

theorem splitOnChar_manifest (lines : List Str) (h : ∀ l ∈ lines, '\n' ∉ l) :
    splitOnChar '\n' (lines.map (fun l => l ++ ['\n'])).flatten
      = lines ++ [[]] := by
  induction lines with
  | nil => simp [splitOnChar]
  | cons l ls ih =>
    have hl : '\n' ∉ l := h l (by simp)
    have hls : ∀ x ∈ ls, '\n' ∉ x := fun x hx => h x (by simp [hx])
    simp only [List.map_cons, List.flatten_cons, List.append_assoc, List.cons_append,
      List.nil_append]
    rw [splitOnChar_append_sep '\n' l _ hl, ih hls]

theorem fileLines_flatten (lines : List Str) (h : ∀ l ∈ lines, '\n' ∉ l) :
    fileLines (lines.map (fun l => l ++ ['\n'])).flatten = lines := by
  unfold fileLines
  rw [splitOnChar_manifest lines h]
  simp

/-- One hex digit. -/
def nib (n : Nat) : Char :=
  match n with
  | 0 => '0' | 1 => '1' | 2 => '2' | 3 => '3' | 4 => '4' | 5 => '5'
  | 6 => '6' | 7 => '7' | 8 => '8' | 9 => '9' | 10 => 'a' | 11 => 'b'
  | 12 => 'c' | 13 => 'd' | 14 => 'e' | _ => 'f'

/-- The sixteen hex digits. -/
def hexDigits : List Char := "0123456789abcdef".toList

theorem nib_mem_hexDigits (n : Nat) : nib n ∈ hexDigits := by
  unfold nib
  split <;> decide

/-- Hex encoding of one character's code point (six digits cover Unicode). -/
def charHex (c : Char) : Str :=
  let n := c.toNat
  [nib (n / 1048576 % 16), nib (n / 65536 % 16), nib (n / 4096 % 16),
   nib (n / 256 % 16), nib (n / 16 % 16), nib (n % 16)]

/-- Injective hex encoding of a byte string; stands in for the hex digest of a
cryptographic hash over those bytes (collision-freeness idealization). -/
def hexEncode (s : Str) : Str := (s.map charHex).flatten

theorem mem_hexEncode_mem_hexDigits (s : Str) (c : Char) (h : c ∈ hexEncode s) :
    c ∈ hexDigits := by
  unfold hexEncode at h
  simp only [List.mem_flatten, List.mem_map] at h
  obtain ⟨l, ⟨d, _, rfl⟩, hc⟩ := h
  simp only [charHex, List.mem_cons] at hc
  rcases hc with h | h | h | h | h | h | h <;>
    first
      | (subst h; exact nib_mem_hexDigits _)
      | simp at h

theorem space_not_mem_hexEncode (s : Str) : ' ' ∉ hexEncode s := by
  intro h
  have := mem_hexEncode_mem_hexDigits s ' ' h
  simp [hexDigits] at this

theorem newline_not_mem_hexEncode (s : Str) : '\n' ∉ hexEncode s := by
  intro h
  have := mem_hexEncode_mem_hexDigits s '\n' h
  simp [hexDigits] at this

/-- Model of `hashlib`'s hex digest of a whole update stream: `hashlib` digests
depend exactly on the concatenation of all `update` calls, so the model digest
is an injective encoding of that concatenation, tagged by the algorithm name
(`hashlib.new(name=hash_name)`, `containerize.py:433`). -/
def hashDigest (hashName : Str) (stream : List Str) : Str :=
  hashName ++ '-' :: hexEncode stream.flatten

/-- `_file_hexdigest` (`containerize.py:181-186`) on given file contents. -/
def fileDigest (hashName : Str) (content : Str) : Str :=
  hashDigest hashName [content]

/-- Characters that may not appear in a manifest field. -/
def sepFree (s : Str) : Prop := ' ' ∉ s ∧ '\n' ∉ s

instance : DecidablePred sepFree := fun s => by
  unfold sepFree
  infer_instance

theorem sepFree_hashDigest (hashName : Str) (h : sepFree hashName)
    (stream : List Str) : sepFree (hashDigest hashName stream) := by
  unfold hashDigest
  constructor
  · simp only [List.mem_append, List.mem_cons, not_or]
    exact ⟨h.1, by simp, space_not_mem_hexEncode _⟩
  · simp only [List.mem_append, List.mem_cons, not_or]
    exact ⟨h.2, by simp, newline_not_mem_hexEncode _⟩


/-- `_atomic_copyfile` (`containerize.py:151-178`): create a temporary file
alongside `dst`, stream `src` into it, then either `os.replace` it over `dst`
(`overwrite`), or `os.rename` it to `dst` only when `dst` does not exist.  When
`src` cannot be opened, the already-created temporary file is removed by the
`finally` block and the function returns `False`; in the `overwrite=False`,
`dst`-exists case no rename happens, the `finally` block removes the temporary
file, and the fall-through returns `False`. -/
def atomicCopyfile (fs : FS) (src dst : Str) (overwrite : Bool) : Bool × FS :=
  let tmp := tmpName dst
  match fsRead fs src with
  | none =>
    -- `open(src, 'rb')` raises after the temp file was created (line 156);
    -- the `finally` block removes the temp file (lines 173-177).
    (false, fsErase (fsWrite fs tmp []) tmp)
  | some content =>
    let fs1 := fsWrite fs tmp content
    if overwrite then
      (true, fsRename fs1 tmp dst)          -- os.replace (lines 162-163)
    else if fsRead fs1 dst ≠ none then
      (false, fsErase fs1 tmp)              -- fall through; finally removes tmp
    else
      (true, fsRename fs1 tmp dst)          -- os.rename (lines 167-168)

/-- Net effect of `_atomic_copyfile` when the temporary name is fresh. -/
theorem atomicCopyfile_eq (fs : FS) (src dst : Str) (ow : Bool)
    (hfresh : fsRead fs (tmpName dst) = none) :
    atomicCopyfile fs src dst ow =
      match fsRead fs src with
      | none => (false, fs)
      | some c =>
        if ow = true ∨ fsRead fs dst = none then (true, fsWrite fs dst c)
        else (false, fs) := by
  unfold atomicCopyfile
  cases hsrc : fsRead fs src with
  | none => simp [fsErase_fsWrite_self fs _ _ hfresh]
  | some c =>
    have hdst : fsRead (fsWrite fs (tmpName dst) c) dst = fsRead fs dst :=
      fsRead_fsWrite_ne fs _ c dst (fun h => tmpName_ne dst h.symm)
    have hren : fsRename (fsWrite fs (tmpName dst) c) (tmpName dst) dst
        = fsWrite fs dst c := by
      unfold fsRename
      rw [fsRead_fsWrite_self]
      rw [fsErase_fsWrite_self fs _ _ hfresh]
    cases ow with
    | true => simp [hren]
    | false =>
      cases hd : fsRead fs dst with
      | none =>
        simp [hdst, hd, hren]
      | some v =>
        simp [hdst, hd, fsErase_fsWrite_self fs _ _ hfresh]

/-- C8: `_atomic_copyfile(src, dst, overwrite)` streams `src` into a temporary
file alongside `dst` and renames it over `dst`; with `overwrite` true the
rename is unconditional, with `overwrite` false the rename happens only when
`dst` does not already exist (leaving an existing `dst` untouched); every
failure path removes the temporary file and returns false, and every success
returns true. -/
theorem atomic_copyfile_contract (fs : FS) (src dst : Str) (ow : Bool)
    (hfresh : fsRead fs (tmpName dst) = none) :
    ((atomicCopyfile fs src dst ow).1 = true ↔
        (fsRead fs src ≠ none ∧ (ow = true ∨ fsRead fs dst = none)))
    ∧ ((atomicCopyfile fs src dst ow).1 = true →
        fsRead (atomicCopyfile fs src dst ow).2 dst = fsRead fs src)
    ∧ ((atomicCopyfile fs src dst ow).1 = false →
        (atomicCopyfile fs src dst ow).2 = fs)
    ∧ fsRead (atomicCopyfile fs src dst ow).2 (tmpName dst) = none := by
  rw [atomicCopyfile_eq fs src dst ow hfresh]
  cases hsrc : fsRead fs src with
  | none => simp [hfresh, hsrc]
  | some c =>
    by_cases hcond : ow = true ∨ fsRead fs dst = none
    · simp only [hcond, if_pos, hsrc]
      refine ⟨by simp, ?_, by simp, ?_⟩
      · intro _
        exact fsRead_fsWrite_self fs dst c
      · rw [fsRead_fsWrite_ne fs dst c _ (tmpName_ne dst)]
        exact hfresh
    · simp only [hcond, if_neg, hsrc]
      simp [hfresh, hcond]

/-- Closed instance of `atomic_copyfile_contract`: one file `"a"` with
contents `"x"`, copied to `"b"` without overwrite. -/
theorem atomic_copyfile_contract_w :
    ((atomicCopyfile [("a".toList, "x".toList)] "a".toList "b".toList false).1 = true ↔
        (fsRead [("a".toList, "x".toList)] "a".toList ≠ none ∧
          (false = true ∨ fsRead [("a".toList, "x".toList)] "b".toList = none)))
    ∧ ((atomicCopyfile [("a".toList, "x".toList)] "a".toList "b".toList false).1 = true →
        fsRead (atomicCopyfile [("a".toList, "x".toList)] "a".toList "b".toList false).2
            "b".toList
          = fsRead [("a".toList, "x".toList)] "a".toList)
    ∧ ((atomicCopyfile [("a".toList, "x".toList)] "a".toList "b".toList false).1 = false →
        (atomicCopyfile [("a".toList, "x".toList)] "a".toList "b".toList false).2
          = [("a".toList, "x".toList)])
    ∧ fsRead (atomicCopyfile [("a".toList, "x".toList)] "a".toList "b".toList false).2
        (tmpName "b".toList) = none :=
  atomic_copyfile_contract [("a".toList, "x".toList)] "a".toList "b".toList false
    (by decide)

/-- Parse one manifest line (`containerize.py:237-238`):
`entries = line.split(' ')`, key `entries[2]`, value `entries[0:2]`.
Fewer than three fields raises `IndexError` (mapped to `none`); extra
fields are ignored. -/
def parseLine (l : Str) : Option (Str × Str × Str) :=
  match splitOnChar ' ' l with
  | dig :: mt :: name :: _ => some (dig, mt, name)
  | _ => none

/-- Lookup in the `manifest_map` dict. -/
def mmRead : List (Str × (Str × Str)) → Str → Option (Str × Str)
  | [], _ => none
  | (q, v) :: mm, k => if q = k then some v else mmRead mm k

/-- `manifest_map.pop(key, None)`. -/
def mmErase : List (Str × (Str × Str)) → Str → List (Str × (Str × Str))
  | [], _ => []
  | (q, v) :: mm, k => if q = k then mmErase mm k else (q, v) :: mmErase mm k

/-- Dict insertion `manifest_map[key] = value` (overwrites). -/
def mmInsert (mm : List (Str × (Str × Str))) (k : Str) (v : Str × Str) :
    List (Str × (Str × Str)) :=
  (k, v) :: mmErase mm k

theorem mmRead_mmErase (mm : List (Str × (Str × Str))) (p q : Str) :
    mmRead (mmErase mm p) q = if q = p then none else mmRead mm q := by
  induction mm with
  | nil => simp [mmErase, mmRead]
  | cons e mm ih =>
    obtain ⟨r, c⟩ := e
    by_cases hrp : r = p <;> by_cases hrq : r = q <;> simp_all [mmErase, mmRead]

/-- Build `manifest_map` from the parsed lines (`containerize.py:234-238`). -/
def buildMM (entries : List (Str × Str × Str)) : List (Str × (Str × Str)) :=
  entries.foldl (fun mm e => mmInsert mm e.2.2 (e.1, e.2.1)) []

/-- The per-output loop of `_try_load_from_cache` (`containerize.py:240-261`),
threading the caller's filesystem and the remaining `manifest_map`.  For each
declared output: a missing manifest entry raises `KeyError`, an unreadable
work-dir copy raises `FileNotFoundError` (both caught by the bare `except`,
line 266, giving `False`); a digest mismatch triggers
`_atomic_copyfile(src=manifest_hash, dst=out_file_name, overwrite=True)` —
note the source path is the bare digest string, whose copy result is only
logged; finally the entry is popped.  The trailing `assert not manifest_map`
turns leftover entries into `False`. -/
def loadLoop (hashName : Str) (fs : FS) (mm : List (Str × (Str × Str))) :
    List Str → Bool × FS
  | [] => (decide (mm = []), fs)
  | n :: rest =>
    match mmRead mm n with
    | none => (false, fs)
    | some (dig, _) =>
      match fsRead fs n with
      | none => (false, fs)
      | some c =>
        let fs1 := if dig ≠ fileDigest hashName c
                   then (atomicCopyfile fs dig n true).2
                   else fs
        loadLoop hashName fs1 (mmErase mm n) rest

/-- `_try_load_from_cache` (`containerize.py:228-267`). -/
def tryLoadFromCache (fs : FS) (manifestFile : Str) (outNames : List Str)
    (hashName : Str) : Bool × FS :=
  match fsRead fs manifestFile with
  | none => (false, fs)
  | some content =>
    match (fileLines content).mapM parseLine with
    | none => (false, fs)
    | some entries => loadLoop hashName fs (buildMM entries) outNames

/-- Digest of the cached (fresh) contents in the C2 scenario. -/
def c2dig : Str := fileDigest "sha256".toList "new".toList

/-- The artifact path `artifacts/<hash_name>/<digest>` under the cache dir. -/
def c2art : Str :=
  pjoin (pjoin (pjoin "cache".toList "artifacts".toList) "sha256".toList) c2dig

/-- The manifest path for the C2 scenario. -/
def c2mf : Str := "cache/manifests/sh/xx-output.manifest".toList

/-- C2 scenario filesystem: a populated cache (manifest entry for `foo.o`
plus the artifact holding `"new"`), and a stale work-dir `foo.o` holding
`"old"`. -/
def c2fs : FS :=
  [(c2mf, manifestLine c2dig "100.0".toList "foo.o".toList),
   (c2art, "new".toList),
   ("foo.o".toList, "old".toList)]

/-- C2: the work-dir copy of `foo.o` is stale (its digest does not match the
manifest), the artifact `artifacts/sha256/<digest>` exists in the cache, yet
`_try_load_from_cache` leaves the filesystem completely unchanged — the
artifact is never copied to the caller's working directory, because the copy
source is the bare digest string resolved in the caller's cwd
(`containerize.py:253`, `src=manifest_hash`), not the artifact path; the
failed copy is swallowed and the load still reports success. -/
theorem cache_load_ignores_artifacts_cex :
    (tryLoadFromCache c2fs c2mf ["foo.o".toList] "sha256".toList).1 = true
    ∧ (tryLoadFromCache c2fs c2mf ["foo.o".toList] "sha256".toList).2 = c2fs
    ∧ fsRead c2fs c2art = some "new".toList
    ∧ fsRead c2fs "foo.o".toList = some "old".toList
    ∧ "old".toList ≠ "new".toList := by
  decide

theorem fsRead_fsRename_other (fs : FS) (s d p : Str) (hs : p ≠ s) (hd : p ≠ d) :
    fsRead (fsRename fs s d) p = fsRead fs p := by
  unfold fsRename
  cases h : fsRead fs s with
  | none => rfl
  | some c =>
    rw [fsRead_fsWrite_ne _ _ _ _ hd, fsRead_fsErase]
    simp [hs]

/-- Primitive filesystem writes performed by `_try_store_into_cache`, kept as
a trace so that intermediate (observable) states can be inspected.  `trunc` is
`open(path, 'w')` (truncate/create), `appendL` a `write` on the open manifest
handle, and `copyA dst content` the whole `_atomic_copyfile(overwrite=False)`
call for one artifact: write the sibling temp file, then rename it onto `dst`
only when `dst` is absent, else remove the temp (`containerize.py:208-211`). -/
inductive StoreOp where
  | trunc : Str → StoreOp
  | copyA : Str → Str → StoreOp
  | appendL : Str → Str → StoreOp
deriving DecidableEq

/-- Apply one store operation to the filesystem. -/
def applyOp (fs : FS) : StoreOp → FS
  | .trunc p => fsWrite fs p []
  | .copyA d c =>
    let fs1 := fsWrite fs (tmpName d) c
    if fsRead fs1 d = none then fsRename fs1 (tmpName d) d
    else fsErase fs1 (tmpName d)
  | .appendL p l =>
    match fsRead fs p with
    | some cur => fsWrite fs p (cur ++ l)
    | none => fs

/-- Apply a whole trace. -/
def applyOps (fs : FS) (ops : List StoreOp) : FS := ops.foldl applyOp fs

theorem applyOps_append (fs : FS) (a b : List StoreOp) :
    applyOps fs (a ++ b) = applyOps (applyOps fs a) b := by
  simp [applyOps, List.foldl_append]

theorem fsRead_applyOp_copyA (fs : FS) (d c p : Str)
    (ht : p ≠ tmpName d) (hd : p ≠ d) :
    fsRead (applyOp fs (StoreOp.copyA d c)) p = fsRead fs p := by
  unfold applyOp
  simp only
  split
  · rw [fsRead_fsRename_other _ _ _ _ ht hd, fsRead_fsWrite_ne _ _ _ _ ht]
  · rw [fsRead_fsErase]
    simp only [if_neg ht]
    rw [fsRead_fsWrite_ne _ _ _ _ ht]

theorem fsRead_applyOp_appendL (fs : FS) (p l : Str) :
    fsRead (applyOp fs (StoreOp.appendL p l)) p
      = Option.map (fun cur => cur ++ l) (fsRead fs p) := by
  unfold applyOp
  cases h : fsRead fs p <;> simp [h, fsRead_fsWrite_self]

/-- The loop body of `_try_store_into_cache` (`containerize.py:199-219`): for
each output, hash its (box) contents, atomically copy it to
`artifacts/<hash_name>/<digest>` with `overwrite=False`, then append the
manifest record through the open manifest handle.  A missing output raises
`FileNotFoundError`, caught at line 222: the function returns `False` with
the manifest left partially written. -/
def storeOpsLoop (hashName artifactsDir manifestFile : Str) (mtimeOf : Str → Str)
    (boxFs : FS) (fs : FS) : List Str → Bool × List StoreOp
  | [] => (true, [])
  | n :: rest =>
    match fsRead boxFs n with
    | none => (false, [])
    | some c =>
      let dig := fileDigest hashName c
      let ops := [StoreOp.copyA (pjoin artifactsDir dig) c,
                  StoreOp.appendL manifestFile (manifestLine dig (mtimeOf n) n)]
      let r := storeOpsLoop hashName artifactsDir manifestFile mtimeOf boxFs
          (applyOps fs ops) rest
      (r.1, ops ++ r.2)

/-- `_try_store_into_cache` (`containerize.py:189-225`): `open(manifest, 'w')`
truncates the manifest in place (line 198) — there is no temporary file and no
rename for the manifest itself — then the per-output loop runs. -/
def storeIntoCache (fs : FS) (boxFs : FS) (outNames : List Str)
    (artifactsDir manifestFile hashName : Str) (mtimeOf : Str → Str) :
    Bool × List StoreOp :=
  let r := storeOpsLoop hashName artifactsDir manifestFile mtimeOf boxFs
      (applyOp fs (StoreOp.trunc manifestFile)) outNames
  (r.1, StoreOp.trunc manifestFile :: r.2)

/-- The destination of the rename underlying an operation, if any: `copyA`
renames the temp file onto the artifact path; nothing else renames. -/
def renDst : StoreOp → Option Str
  | .copyA d _ => some d
  | _ => none

/-- Box contents for the C7 scenario: the two declared outputs of the happy
path, as produced by the child. -/
def c7box : FS := [("foo.o".toList, "o1".toList), ("foo.su".toList, "s1".toList)]

/-- Artifacts directory for the C7 scenario. -/
def c7ad : Str := "cache/artifacts/sha256".toList

/-- Manifest path for the C7 scenario. -/
def c7mf : Str := "cache/manifests/ab/cd-output.manifest".toList

/-- First manifest record of the C7 scenario. -/
def c7l1 : Str :=
  manifestLine (fileDigest "sha256".toList "o1".toList) "1.0".toList "foo.o".toList

/-- Second manifest record of the C7 scenario. -/
def c7l2 : Str :=
  manifestLine (fileDigest "sha256".toList "s1".toList) "1.0".toList "foo.su".toList

/-- The C7 store trace on an empty cache. -/
def c7ops : List StoreOp :=
  (storeIntoCache [] c7box ["foo.o".toList, "foo.su".toList] c7ad c7mf
    "sha256".toList (fun _ => "1.0".toList)).2

/-- C7: storing two outputs writes the manifest in place — after the first
three primitive writes of the trace the manifest path already holds exactly
the first record, a strict prefix of the final content, so a partially
written manifest is observable; moreover no operation of the trace ever
renames anything onto the manifest path, refuting the claimed
temp-file-plus-rename. -/
theorem manifest_store_not_atomic_cex :
    fsRead (applyOps [] (c7ops.take 3)) c7mf = some c7l1
    ∧ fsRead (applyOps [] c7ops) c7mf = some (c7l1 ++ c7l2)
    ∧ c7l1 ≠ c7l1 ++ c7l2
    ∧ ∀ op ∈ c7ops, renDst op ≠ some c7mf := by
  decide

theorem pjoin_eq_append (a b : Str) (h : a ≠ []) :
    pjoin a b = (a ++ ['/']) ++ b := by
  simp [pjoin, h]

/-- The per-output store loop never touches the manifest path except through
the open handle: it succeeds when every output is readable in the box,
appends exactly one record per output to the manifest, and never renames
anything onto the manifest path. -/
theorem storeOpsLoop_spec (hashName artifactsDir manifestFile : Str)
    (mtimeOf : Str → Str) (boxFs : FS) (had : artifactsDir ≠ [])
    (hm : startsWithStr (artifactsDir ++ ['/']) manifestFile = false) :
    ∀ (names : List Str) (fs : FS) (acc : Str),
      (∀ n ∈ names, fsRead boxFs n ≠ none) →
      fsRead fs manifestFile = some acc →
      (storeOpsLoop hashName artifactsDir manifestFile mtimeOf boxFs fs names).1 = true
      ∧ fsRead
          (applyOps fs
            (storeOpsLoop hashName artifactsDir manifestFile mtimeOf boxFs fs names).2)
          manifestFile
        = some (acc ++ (names.map (fun n =>
            manifestLine (fileDigest hashName ((fsRead boxFs n).getD []))
              (mtimeOf n) n)).flatten)
      ∧ ∀ op ∈ (storeOpsLoop hashName artifactsDir manifestFile mtimeOf boxFs fs names).2,
          renDst op ≠ some manifestFile := by
  have hart : ∀ d, manifestFile ≠ pjoin artifactsDir d := by
    intro d
    rw [pjoin_eq_append _ _ had]
    exact ne_of_startsWithStr_false _ _ hm d
  have htmp : ∀ d, manifestFile ≠ tmpName (pjoin artifactsDir d) := by
    intro d
    rw [pjoin_eq_append _ _ had]
    unfold tmpName
    rw [List.append_assoc]
    exact ne_of_startsWithStr_false _ _ hm _
  intro names
  induction names with
  | nil =>
    intro fs acc _ hacc
    simp [storeOpsLoop, applyOps, hacc]
  | cons n rest ih =>
    intro fs acc hbox hacc
    have hn : fsRead boxFs n ≠ none := hbox n (by simp)
    obtain ⟨c, hc⟩ := Option.ne_none_iff_exists'.mp hn
    have hrest : ∀ m ∈ rest, fsRead boxFs m ≠ none := fun m hm' => hbox m (by simp [hm'])
    have h1 : fsRead (applyOps fs
        [StoreOp.copyA (pjoin artifactsDir (fileDigest hashName c)) c,
         StoreOp.appendL manifestFile
           (manifestLine (fileDigest hashName c) (mtimeOf n) n)]) manifestFile
        = some (acc ++ manifestLine (fileDigest hashName c) (mtimeOf n) n) := by
      simp only [applyOps, List.foldl_cons, List.foldl_nil]
      rw [fsRead_applyOp_appendL,
        fsRead_applyOp_copyA fs _ c manifestFile (htmp _) (hart _), hacc]
      rfl
    simp only [storeOpsLoop, hc]
    obtain ⟨hb, hread, hren⟩ := ih (applyOps fs
        [StoreOp.copyA (pjoin artifactsDir (fileDigest hashName c)) c,
         StoreOp.appendL manifestFile
           (manifestLine (fileDigest hashName c) (mtimeOf n) n)])
        (acc ++ manifestLine (fileDigest hashName c) (mtimeOf n) n) hrest h1
    refine ⟨hb, ?_, ?_⟩
    · rw [← applyOps_append] at hread
      simp only [List.map_cons, List.flatten_cons, hc, Option.getD_some]
      rw [hread]
      simp [List.append_assoc]
    · intro op hop
      simp only [List.cons_append, List.nil_append, List.mem_cons] at hop
      rcases hop with rfl | rfl | hop
      · simp only [renDst, ne_eq, Option.some.injEq]
        exact fun h => hart _ h.symm
      · simp [renDst]
      · exact hren op hop

/-- C7 (amended): the cache store writes the manifest file in place — the
trace begins by truncating the manifest path (`open(manifest, 'w')`), each
record is appended through the open handle, and no operation renames anything
onto the manifest path, so a partially written manifest is observable during
the store; when every declared output is readable, the store succeeds and the
final manifest content is exactly the concatenated records.  Only artifact
files are written via a sibling temp file plus rename. -/
theorem manifest_store_inplace (fs boxFs : FS) (outNames : List Str)
    (artifactsDir manifestFile hashName : Str) (mtimeOf : Str → Str)
    (had : artifactsDir ≠ [])
    (hm : startsWithStr (artifactsDir ++ ['/']) manifestFile = false)
    (hbox : ∀ n ∈ outNames, fsRead boxFs n ≠ none) :
    (storeIntoCache fs boxFs outNames artifactsDir manifestFile hashName mtimeOf).1 = true
    ∧ (storeIntoCache fs boxFs outNames artifactsDir manifestFile hashName mtimeOf).2.head?
        = some (StoreOp.trunc manifestFile)
    ∧ fsRead
        (applyOps fs
          (storeIntoCache fs boxFs outNames artifactsDir manifestFile hashName mtimeOf).2)
        manifestFile
      = some ((outNames.map (fun n =>
          manifestLine (fileDigest hashName ((fsRead boxFs n).getD []))
            (mtimeOf n) n)).flatten)
    ∧ ∀ op ∈ (storeIntoCache fs boxFs outNames artifactsDir manifestFile hashName mtimeOf).2,
        renDst op ≠ some manifestFile := by
  have hstart : fsRead (applyOp fs (StoreOp.trunc manifestFile)) manifestFile = some [] := by
    unfold applyOp
    exact fsRead_fsWrite_self fs manifestFile []
  obtain ⟨hb, hread, hren⟩ := storeOpsLoop_spec hashName artifactsDir manifestFile mtimeOf
    boxFs had hm outNames (applyOp fs (StoreOp.trunc manifestFile)) [] hbox hstart
  refine ⟨hb, rfl, ?_, ?_⟩
  · show fsRead (applyOps fs (StoreOp.trunc manifestFile ::
        (storeOpsLoop hashName artifactsDir manifestFile mtimeOf boxFs
          (applyOp fs (StoreOp.trunc manifestFile)) outNames).2)) manifestFile = _
    rw [show (StoreOp.trunc manifestFile ::
        (storeOpsLoop hashName artifactsDir manifestFile mtimeOf boxFs
          (applyOp fs (StoreOp.trunc manifestFile)) outNames).2)
      = [StoreOp.trunc manifestFile] ++
        (storeOpsLoop hashName artifactsDir manifestFile mtimeOf boxFs
          (applyOp fs (StoreOp.trunc manifestFile)) outNames).2 from rfl]
    rw [applyOps_append]
    rw [show applyOps fs [StoreOp.trunc manifestFile]
      = applyOp fs (StoreOp.trunc manifestFile) from rfl]
    rw [hread]
    simp
  · intro op hop
    simp only [storeIntoCache, List.mem_cons] at hop
    rcases hop with rfl | hop
    · simp [renDst]
    · exact hren op hop

/-- Closed instance of `manifest_store_inplace` on the C7 scenario data. -/
theorem manifest_store_inplace_w :
    (storeIntoCache [] c7box ["foo.o".toList, "foo.su".toList] c7ad c7mf
      "sha256".toList (fun _ => "1.0".toList)).1 = true
    ∧ (storeIntoCache [] c7box ["foo.o".toList, "foo.su".toList] c7ad c7mf
        "sha256".toList (fun _ => "1.0".toList)).2.head?
        = some (StoreOp.trunc c7mf)
    ∧ fsRead
        (applyOps []
          (storeIntoCache [] c7box ["foo.o".toList, "foo.su".toList] c7ad c7mf
            "sha256".toList (fun _ => "1.0".toList)).2) c7mf
      = some (((["foo.o".toList, "foo.su".toList]).map (fun n =>
          manifestLine (fileDigest "sha256".toList ((fsRead c7box n).getD []))
            ((fun _ => "1.0".toList) n) n)).flatten)
    ∧ ∀ op ∈ (storeIntoCache [] c7box ["foo.o".toList, "foo.su".toList] c7ad c7mf
        "sha256".toList (fun _ => "1.0".toList)).2,
        renDst op ≠ some c7mf :=
  manifest_store_inplace [] c7box ["foo.o".toList, "foo.su".toList] c7ad c7mf
    "sha256".toList (fun _ => "1.0".toList) (by decide) (by decide) (by decide)

/-- `_strip_prefix` (`containerize.py:324-328`): drop `pre` from the start of
`text` when present. -/
def dropPre (pre text : Str) : Str :=
  if startsWithStr pre text then text.drop pre.length else text

/-- Python text-file line iteration keeping the trailing newline of each
line (`for line in out_h`, `containerize.py:338`). -/
def linesKeepNL : Str → List Str
  | [] => []
  | c :: cs =>
    match linesKeepNL cs with
    | [] => [[c]]
    | l :: ls => if c = '\n' then [c] :: l :: ls else (c :: l) :: ls

/-- The content the scrub loop writes into the temp file: every line with the
sandbox prefix removed from its start (`containerize.py:338-339`). -/
def stripContent (pre content : Str) : Str :=
  ((linesKeepNL content).map (dropPre pre)).flatten

/-- One iteration of `_strip_prefix_from_out_file_contents`
(`containerize.py:333-344`): a temp file is created next to the output, the
stripped lines are written into it, and then
`os.link(src=str(fixed_out_h), dst=out_file.name())` runs — `str(fixed_out_h)`
is the `repr` of the handle object (not a path) and `out_file.name` is a
string property being called, so the link step always raises; the `except`
branch removes the temp file and swallows the error, leaving the output file
untouched. -/
def stripOneOutFile (boxFs : FS) (name pre : Str) : FS :=
  fsErase
    (match fsRead (fsWrite boxFs (tmpName name) []) name with
     | none => fsWrite boxFs (tmpName name) []
     | some content =>
       fsWrite (fsWrite boxFs (tmpName name) []) (tmpName name)
         (stripContent pre content))
    (tmpName name)

/-- `_strip_prefix_from_out_file_contents` over all declared outputs. -/
def stripOutFiles (boxFs : FS) (outNames : List Str) (pre : Str) : FS :=
  outNames.foldl (fun b n => stripOneOutFile b n pre) boxFs

theorem fsErase_fsErase (fs : FS) (p : Str) :
    fsErase (fsErase fs p) p = fsErase fs p := by
  induction fs with
  | nil => simp [fsErase]
  | cons e fs ih =>
    obtain ⟨q, c⟩ := e
    by_cases h : q = p <;> simp [fsErase, h, ih]

theorem stripOneOutFile_id (boxFs : FS) (name pre : Str)
    (h : fsRead boxFs (tmpName name) = none) :
    stripOneOutFile boxFs name pre = boxFs := by
  unfold stripOneOutFile
  have hne : name ≠ tmpName name := fun hh => tmpName_ne name hh.symm
  rw [fsRead_fsWrite_ne _ _ _ _ hne]
  cases hr : fsRead boxFs name with
  | none =>
    exact fsErase_fsWrite_self boxFs _ _ h
  | some content =>
    show fsErase (fsWrite (fsWrite boxFs (tmpName name) []) (tmpName name)
      (stripContent pre content)) (tmpName name) = boxFs
    unfold fsWrite
    show fsErase ((tmpName name, stripContent pre content) ::
      fsErase ((tmpName name, []) :: fsErase boxFs (tmpName name)) (tmpName name))
      (tmpName name) = boxFs
    simp only [fsErase, if_pos]
    rw [fsErase_fsErase, fsErase_fsErase]
    exact fsErase_of_fsRead_none boxFs (tmpName name) h

theorem stripOutFiles_id (boxFs : FS) (outNames : List Str) (pre : Str)
    (h : ∀ n ∈ outNames, fsRead boxFs (tmpName n) = none) :
    stripOutFiles boxFs outNames pre = boxFs := by
  induction outNames with
  | nil => rfl
  | cons n rest ih =>
    show stripOutFiles (stripOneOutFile boxFs n pre) rest pre = boxFs
    rw [stripOneOutFile_id boxFs n pre (h n (by simp))]
    exact ih (fun m hm => h m (by simp [hm]))

/-- The C9 output file content: a static-analyzer style report whose lines
start with the absolute sandbox input path. -/
def c9content : Str := "/box/in/foo.c:1: warning\n/box/in/foo.c:9: note\n".toList

/-- The sandbox prefix `in_dir_abspath + os.sep` of the C9 scenario. -/
def c9pre : Str := "/box/in/".toList

/-- C9: with `strip_box_in_dir_prefix` set, the declared output is NOT
rewritten: the scrub's link step can never succeed (its source is the `repr`
of the temp-file handle and its destination calls a string property), so the
box file keeps its original content even though the stripped content differs
— the documented rewrite never takes effect. -/
theorem strip_box_prefix_never_rewrites_cex :
    stripOneOutFile [("foo.su".toList, c9content)] "foo.su".toList c9pre
      = [("foo.su".toList, c9content)]
    ∧ stripContent c9pre c9content ≠ c9content := by
  decide

/-- The single-quote character, used by Python `repr` of simple strings. -/
def sq : Str := [Char.ofNat 39]

/-- Python `repr` of a plain string (no escaping needed for the names used
in the modelled messages). -/
def reprStr (s : Str) : Str := sq ++ s ++ sq

/-- `", ".join(...)`. -/
def joinComma : List Str → Str
  | [] => []
  | [x] => x
  | x :: y :: xs => x ++ ',' :: ' ' :: joinComma (y :: xs)

/-- `Names.__str__` (`containerize.py:347-349`): `{repr, repr, ...}`. -/
def renderNames (l : List Str) : Str :=
  Char.ofNat 123 :: joinComma (l.map reprStr) ++ [Char.ofNat 125]

/-- Python `str` of a list of strings, as produced by
`str(os.listdir(...))` (`containerize.py:614`). -/
def renderPyList (l : List Str) : Str :=
  '[' :: joinComma (l.map reprStr) ++ [']']

/-- Set intersection, in the first set's iteration order. -/
def interNames (xs ys : List Str) : List Str :=
  xs.filter (fun x => decide (x ∈ ys))

/-- Message for an input/output overlap (`containerize.py:364`). -/
def msgInOut (inter : List Str) : Str :=
  "Input files and output files overlap for ".toList ++ renderNames inter

/-- Message for an input/temp overlap (`containerize.py:368`). -/
def msgInTemp (inter : List Str) : Str :=
  "Input files and temporary directories overlap for ".toList ++ renderNames inter

/-- Message for an output/temp overlap (`containerize.py:372`). -/
def msgOutTemp (inter : List Str) : Str :=
  "Output files and temporary directories overlap for ".toList ++ renderNames inter

/-- `assert_disjunct_file_sets` (`containerize.py:352-372`): three pairwise
intersection checks, each raising its own message, in source order. -/
def assertDisjunct (ins outs temps : List Str) : Except Str Unit :=
  let io := interNames ins outs
  if io ≠ [] then .error (msgInOut io)
  else
    let it := interNames ins temps
    if it ≠ [] then .error (msgInTemp it)
    else
      let ot := interNames outs temps
      if ot ≠ [] then .error (msgOutTemp ot)
      else .ok ()

/-- A typed argument of `isolated_call` (`containerize.py:89-133, 443-451`):
`infile` carries the relative boxed path and the optional
`unboxed_abspath` override; `outfile`, `tmpfile` and `tmpdir` carry their
relative path; `lit` is a plain string argument. -/
inductive TypedArg where
  | exec : Str → TypedArg
  | infile : Str → Option Str → TypedArg
  | outfile : Str → TypedArg
  | tmpfile : Str → TypedArg
  | tmpdir : Str → TypedArg
  | lit : Str → TypedArg
deriving DecidableEq

/-- `str(typed_arg)` (`containerize.py:458`). -/
def TypedArg.argStr : TypedArg → Str
  | .exec p => p
  | .infile b _ => b
  | .outfile p => p
  | .tmpfile p => p
  | .tmpdir p => p
  | .lit s => s

/-- `subdir_prefixes` (`containerize.py:443-451`). -/
def TypedArg.preDir : TypedArg → Str
  | .outfile _ => "../out".toList
  | .tmpfile _ => "../temp".toList
  | .tmpdir _ => "../temp".toList
  | _ => []

/-- `os.path.join(arg_prefix, arg)` (`containerize.py:480`). -/
def TypedArg.toArg (a : TypedArg) : Str := pjoin a.preDir a.argStr

/-- `as_unboxed` of an input path (`containerize.py:94-95`). -/
def inUnboxed (b : Str) (u : Option Str) : Str := u.getD b

/-- An element of `extra_inputs` (`containerize.py:483-496`). -/
inductive ExtraIn where
  | bytes : Str → ExtraIn
  | infile : Str → Option Str → ExtraIn
deriving DecidableEq

/-- A value of `typed_env` (`containerize.py:514-519`): a literal string or a
`TempDirPath`. -/
inductive EnvVal where
  | str : Str → EnvVal
  | tmpdir : Str → EnvVal
deriving DecidableEq

/-- `str(typed_value)` (`containerize.py:521`). -/
def EnvVal.toStr : EnvVal → Str
  | .str s => s
  | .tmpdir p => p

/-- Result of processing `typed_args`/`extra_inputs`/`extra_outputs`
(`containerize.py:453-506`): the hash update stream so far, the unboxed paths
read for hashing, the three name sets (in insertion order, deduplicated as the
Python sets are), and the expanded argument vector. -/
structure ScanResult where
  updates : List Str
  reads : List Str
  inNames : List Str
  outNames : List Str
  tempNames : List Str
  args : List Str
deriving DecidableEq

/-- `set.add`: keep the first occurrence. -/
def addNew (l : List Str) (x : Str) : List Str := if x ∈ l then l else l ++ [x]

/-- The `FileNotFoundError` raised by `open` on a missing path. -/
def fnfMsg (p : Str) : Str := "FileNotFoundError: ".toList ++ p

/-- The `AssertionError` from `assert isinstance(typed_arg, str)`
(`containerize.py:478`). -/
def assertMsg : Str := "AssertionError".toList

/-- The `typed_args` loop (`containerize.py:453-480`): every argument's string
form is hashed when caching; input and executable file contents are read and
hashed when caching; inputs, outputs and temp dirs are collected into their
sets; each argument is appended to the vector as `join(prefix, arg)`.  A
`TempFilePath` argument matches none of the `isinstance` branches
(lines 463-477) and trips `assert isinstance(typed_arg, str)` at line 478:
`AssertionError`, uncaught. -/
def scanTypedArgs (useCaching : Bool) (fs : FS) (acc : ScanResult) :
    List TypedArg → Except Str ScanResult
  | [] => .ok acc
  | a :: rest =>
    let upd0 := if useCaching then acc.updates ++ [a.argStr] else acc.updates
    let args1 := acc.args ++ [a.toArg]
    match a with
    | .infile b u =>
      if useCaching then
        match fsRead fs (inUnboxed b u) with
        | none => .error (fnfMsg (inUnboxed b u))
        | some content =>
          scanTypedArgs useCaching fs
            { acc with updates := upd0 ++ [content],
                       reads := acc.reads ++ [inUnboxed b u],
                       inNames := addNew acc.inNames b,
                       args := args1 } rest
      else
        scanTypedArgs useCaching fs
          { acc with updates := upd0, inNames := addNew acc.inNames b,
                     args := args1 } rest
    | .exec p =>
      if useCaching then
        match fsRead fs p with
        | none => .error (fnfMsg p)
        | some content =>
          scanTypedArgs useCaching fs
            { acc with updates := upd0 ++ [content],
                       reads := acc.reads ++ [p], args := args1 } rest
      else
        scanTypedArgs useCaching fs { acc with updates := upd0, args := args1 } rest
    | .outfile p =>
      scanTypedArgs useCaching fs
        { acc with updates := upd0, outNames := addNew acc.outNames p,
                   args := args1 } rest
    | .tmpdir p =>
      scanTypedArgs useCaching fs
        { acc with updates := upd0, tempNames := addNew acc.tempNames p,
                   args := args1 } rest
    | .tmpfile _ =>
      .error assertMsg
    | .lit _ =>
      scanTypedArgs useCaching fs { acc with updates := upd0, args := args1 } rest

/-- The `extra_inputs` loop (`containerize.py:483-496`): bytes are hashed
directly; input paths are added to the input set and, when caching, their
boxed name and unboxed contents are hashed.  Nothing is appended to the
argument vector. -/
def scanExtras (useCaching : Bool) (fs : FS) (acc : ScanResult) :
    List ExtraIn → Except Str ScanResult
  | [] => .ok acc
  | .bytes bs :: rest =>
    scanExtras useCaching fs
      { acc with updates := if useCaching then acc.updates ++ [bs] else acc.updates } rest
  | .infile b u :: rest =>
    if useCaching then
      match fsRead fs (inUnboxed b u) with
      | none => .error (fnfMsg (inUnboxed b u))
      | some content =>
        scanExtras useCaching fs
          { acc with inNames := addNew acc.inNames b,
                     updates := acc.updates ++ [b, content],
                     reads := acc.reads ++ [inUnboxed b u] } rest
    else
      scanExtras useCaching fs { acc with inNames := addNew acc.inNames b } rest

/-- The empty accumulator. -/
def emptyScan : ScanResult := ⟨[], [], [], [], [], []⟩

/-- Argument processing in source order: `typed_args` (lines 453-480), then
`extra_inputs` (483-496), then `extra_outputs` (499-506, each added to the
output set). -/
def scanAll (useCaching : Bool) (fs : FS) (targs : List TypedArg)
    (extraIns : List ExtraIn) (extraOuts : List Str) : Except Str ScanResult :=
  match scanTypedArgs useCaching fs emptyScan targs with
  | .error e => .error e
  | .ok a1 =>
    match scanExtras useCaching fs a1 extraIns with
    | .error e => .error e
    | .ok a2 => .ok { a2 with outNames := extraOuts.foldl addNew a2.outNames }

/-- Injective encoding of an env value used only to break sort ties; with the
distinct keys of a Python dict the tie-break never fires, so any total
tie-break models `sorted(typed_env.items())` exactly. -/
def encEnvVal : EnvVal → Str
  | .str s => 's' :: s
  | .tmpdir p => 'd' :: p

theorem encEnvVal_inj (a b : EnvVal) (h : encEnvVal a = encEnvVal b) : a = b := by
  cases a <;> cases b <;> simp [encEnvVal] at h <;> simp [h]

/-- The comparison underlying `sorted(typed_env.items())`
(`containerize.py:515`): lexicographic on the name, with a total tie-break. -/
def envPairLe (a b : Str × EnvVal) : Prop :=
  a.1 < b.1 ∨ (a.1 = b.1 ∧ encEnvVal a.2 ≤ encEnvVal b.2)

instance : DecidableRel envPairLe := fun a b => by
  unfold envPairLe
  infer_instance

instance : IsTotal (Str × EnvVal) envPairLe where
  total a b := by
    rcases lt_trichotomy a.1 b.1 with h | h | h
    · exact Or.inl (Or.inl h)
    · rcases le_total (encEnvVal a.2) (encEnvVal b.2) with hv | hv
      · exact Or.inl (Or.inr ⟨h, hv⟩)
      · exact Or.inr (Or.inr ⟨h.symm, hv⟩)
    · exact Or.inr (Or.inl h)

instance : IsTrans (Str × EnvVal) envPairLe where
  trans a b c hab hbc := by
    rcases hab with h1 | ⟨h1, v1⟩
    · rcases hbc with h2 | ⟨h2, _⟩
      · exact Or.inl (h1.trans h2)
      · exact Or.inl (h2 ▸ h1)
    · rcases hbc with h2 | ⟨h2, v2⟩
      · exact Or.inl (h1 ▸ h2)
      · exact Or.inr ⟨h1.trans h2, v1.trans v2⟩

instance : IsAntisymm (Str × EnvVal) envPairLe where
  antisymm a b hab hba := by
    rcases hab with h1 | ⟨h1, v1⟩
    · rcases hba with h2 | ⟨h2, _⟩
      · exact absurd (h1.trans h2) (lt_irrefl a.1)
      · exact absurd h1 (h2 ▸ lt_irrefl b.1)
    · rcases hba with h2 | ⟨_, v2⟩
      · exact absurd h2 (h1 ▸ lt_irrefl a.1)
      · obtain ⟨a1, a2⟩ := a
        obtain ⟨b1, b2⟩ := b
        simp only at h1 v1 v2
        rw [h1, encEnvVal_inj a2 b2 (le_antisymm v1 v2)]

/-- `sorted(typed_env.items())` (`containerize.py:515`). -/
def sortEnv (env : List (Str × EnvVal)) : List (Str × EnvVal) :=
  env.insertionSort envPairLe

theorem sortEnv_eq_of_perm (env1 env2 : List (Str × EnvVal)) (h : env1.Perm env2) :
    sortEnv env1 = sortEnv env2 :=
  List.eq_of_perm_of_sorted
    ((List.perm_insertionSort envPairLe env1).trans
      (h.trans (List.perm_insertionSort envPairLe env2).symm))
    (List.sorted_insertionSort envPairLe env1)
    (List.sorted_insertionSort envPairLe env2)

/-- The environment hash updates (`containerize.py:524-525`): for each sorted
entry, the name then the value string.  These updates are unconditional in
the source (not guarded by `use_caching`). -/
def envUpdates (env : List (Str × EnvVal)) : List Str :=
  (sortEnv env).flatMap (fun e => [e.1, e.2.toStr])

/-- The expanded `env` dict passed to `call` (`containerize.py:513-522`),
in its deterministic (sorted) insertion order. -/
def envStrs (env : List (Str × EnvVal)) : List (Str × Str) :=
  (sortEnv env).map (fun e => (e.1, e.2.toStr))

/-- The full parameter record of one `isolated_call` invocation
(`containerize.py:395-404`).  `shell` and `timeout` are passed through to
`call` and participate in nothing else. -/
structure CallSpec where
  typedArgs : List TypedArg
  typedEnv : List (Str × EnvVal)
  extraInputs : List ExtraIn
  extraOutputs : List Str
  cacheDir : Option Str
  hashName : Str
  shell : Bool
  timeout : Option Nat
  stripBox : Bool

/-- The fingerprint update stream of an invocation: argument processing
followed by the environment updates (`containerize.py:453-525`). -/
def fingerprintStream (spec : CallSpec) (fs : FS) : Except Str (List Str) :=
  match scanAll spec.cacheDir.isSome fs spec.typedArgs spec.extraInputs
      spec.extraOutputs with
  | .error e => .error e
  | .ok sc => .ok (sc.updates ++ envUpdates spec.typedEnv)

/-- The fingerprint hex digest (`containerize.py:528`). -/
def fingerprintHex (spec : CallSpec) (fs : FS) : Except Str Str :=
  (fingerprintStream spec fs).map (hashDigest spec.hashName)

/-- `move_output_from_box` (`containerize.py:295-311`): each declared output
is renamed from the box output dir (the CWD) into the caller's working
directory.  When the box file is missing, the rename raises, the copy
fallback fails silently, and the unconditional `os.remove` then raises an
uncaught `FileNotFoundError`; outputs already moved stay moved. -/
def moveOutputs (fs boxFs : FS) : List Str → Option Str × FS × FS
  | [] => (none, fs, boxFs)
  | n :: rest =>
    match fsRead boxFs n with
    | some c => moveOutputs (fsWrite fs n c) (fsErase boxFs n) rest
    | none => (some (fnfMsg n), fs, boxFs)

/-- The manifest path `manifests/<hex[0:2]>/<hex>-output.manifest` under the
cache dir (`containerize.py:530-536`). -/
def manifestPath (cd hashName : Str) (updates : List Str) : Str :=
  pjoin (pjoin (pjoin cd "manifests".toList) ((hashDigest hashName updates).take 2))
    (hashDigest hashName updates ++ "-output.manifest".toList)

/-- The artifacts directory `artifacts/<hash_name>` under the cache dir
(`containerize.py:538-541`). -/
def artifactsPath (cd hashName : Str) : Str :=
  pjoin (pjoin cd "artifacts".toList) hashName

/-- The undeclared-output error message (`containerize.py:613-614`). -/
def undeclMsg (outDir : Str) (names : List Str) : Str :=
  "Box output directory ".toList ++ outDir
    ++ " contain undeclared outputs ".toList ++ renderPyList names

/-- Observable outcome of one `isolated_call`: the returned exit status or
raised error, the final state of the caller-visible filesystem (working
directory plus cache), whether the injected `call` ran, which unboxed paths
were read while fingerprinting, and whether a cache probe / store happened. -/
structure Outcome where
  result : Except Str Int
  fs : FS
  callInvoked : Bool
  hashReads : List Str
  probed : Bool
  stored : Bool

/-- The sandbox phase of `isolated_call` (`containerize.py:551-621`): the
child is modelled as a function from the expanded argument vector and the
environment to an exit status plus the files it leaves under the box output
dir.  On exit zero: optional prefix scrub (591-593), cache store (595-602),
move of declared outputs to the working directory (604-606), and the
`os.rmdir` undeclared-output check (609-616), in that source order.  A
non-zero status skips all of it and is returned as-is (621). -/
def runBox (spec : CallSpec) (fs : FS)
    (child : List Str → List (Str × Str) → Int × FS)
    (mtimeOf : Str → Str) (boxDir : Str) (sc : ScanResult)
    (env : List (Str × Str)) (cacheInfo : Option (Str × Str)) : Outcome :=
  let r := child sc.args env
  if r.1 = 0 then
    let boxFs1 :=
      if spec.stripBox then
        stripOutFiles r.2 sc.outNames (pjoin boxDir "in".toList ++ ['/'])
      else r.2
    let stfs :=
      match cacheInfo with
      | some (mf, ad) =>
        (true,
          applyOps fs (storeIntoCache fs boxFs1 sc.outNames ad mf spec.hashName mtimeOf).2)
      | none => (false, fs)
    let mv := moveOutputs stfs.2 boxFs1 sc.outNames
    match mv.1 with
    | some e => ⟨.error e, mv.2.1, true, sc.reads, cacheInfo.isSome, stfs.1⟩
    | none =>
      if mv.2.2 ≠ [] then
        ⟨.error (undeclMsg (pjoin boxDir "out".toList) (mv.2.2.map (·.1))),
          mv.2.1, true, sc.reads, cacheInfo.isSome, stfs.1⟩
      else
        ⟨.ok 0, mv.2.1, true, sc.reads, cacheInfo.isSome, stfs.1⟩
  else
    ⟨.ok r.1, fs, true, sc.reads, cacheInfo.isSome, false⟩

/-- `isolated_call` (`containerize.py:395-621`): argument scan, disjointness
validation, environment expansion, fingerprinting and cache probe when a
cache dir is given (527-548, with `load_from_cache = True`, line 431), then
the sandboxed execution. -/
def isolatedCall (spec : CallSpec) (fs0 : FS)
    (child : List Str → List (Str × Str) → Int × FS)
    (mtimeOf : Str → Str) (boxDir : Str) : Outcome :=
  match scanAll spec.cacheDir.isSome fs0 spec.typedArgs spec.extraInputs
      spec.extraOutputs with
  | .error e => ⟨.error e, fs0, false, [], false, false⟩
  | .ok sc =>
    match assertDisjunct sc.inNames sc.outNames sc.tempNames with
    | .error m => ⟨.error m, fs0, false, sc.reads, false, false⟩
    | .ok _ =>
      let env := envStrs spec.typedEnv
      match spec.cacheDir with
      | some cd =>
        match tryLoadFromCache fs0 (manifestPath cd spec.hashName
            (sc.updates ++ envUpdates spec.typedEnv)) sc.outNames spec.hashName with
        | (true, fs1) => ⟨.ok 0, fs1, false, sc.reads, true, false⟩
        | (false, fs1) =>
          runBox spec fs1 child mtimeOf boxDir sc env
            (some (manifestPath cd spec.hashName (sc.updates ++ envUpdates spec.typedEnv),
              artifactsPath cd spec.hashName))
      | none => runBox spec fs0 child mtimeOf boxDir sc env none

theorem scanAll_extraOuts (useC : Bool) (fs : FS) (targs : List TypedArg)
    (extras : List ExtraIn) (eo : List Str) :
    scanAll useC fs targs extras eo
      = (scanAll useC fs targs extras []).map
          (fun a => { a with outNames := eo.foldl addNew a.outNames }) := by
  unfold scanAll
  cases h1 : scanTypedArgs useC fs emptyScan targs with
  | error e => rfl
  | ok a1 =>
    cases h2 : scanExtras useC fs a1 extras with
    | error e => simp [h2, Except.map]
    | ok a2 => simp [h2, Except.map]

/-- C5 (amended): the fingerprint ignores `extra_outputs`, the `shell` flag
and the `timeout`: two invocations identical except in those three fields
produce identical fingerprint results.  (Declared outputs and temp paths
appearing in `typed_args` are NOT ignored: their string forms are hashed,
see `fingerprint_hashes_output_name_cex`.) -/
theorem fingerprint_ignores_extraouts_shell_timeout (spec : CallSpec) (fs : FS)
    (eo1 eo2 : List Str) (sh1 sh2 : Bool) (t1 t2 : Option Nat) :
    fingerprintHex { spec with extraOutputs := eo1, shell := sh1, timeout := t1 } fs
      = fingerprintHex { spec with extraOutputs := eo2, shell := sh2, timeout := t2 } fs := by
  unfold fingerprintHex fingerprintStream
  rw [scanAll_extraOuts _ _ _ _ eo1, scanAll_extraOuts _ _ _ _ eo2]
  cases scanAll spec.cacheDir.isSome fs spec.typedArgs spec.extraInputs [] <;> rfl

/-- A minimal invocation whose only typed argument is `Output("foo.o")`. -/
def c5specA : CallSpec :=
  { typedArgs := [TypedArg.outfile "foo.o".toList], typedEnv := [],
    extraInputs := [], extraOutputs := [], cacheDir := some "cache".toList,
    hashName := "sha256".toList, shell := false, timeout := none,
    stripBox := false }

/-- The same invocation with the output argument renamed to `bar.o`. -/
def c5specB : CallSpec :=
  { c5specA with typedArgs := [TypedArg.outfile "bar.o".toList] }

/-- C5 counterexample: two invocations that differ only in the path name of an
`Output` typed argument produce different fingerprint hex digests, because
`isolated_call` hashes the string form of every typed argument
(`containerize.py:461`), outputs included. -/
theorem fingerprint_hashes_output_name_cex :
    (fingerprintHex c5specA []).toOption ≠ none
    ∧ (fingerprintHex c5specB []).toOption ≠ none
    ∧ fingerprintHex c5specA [] ≠ fingerprintHex c5specB [] := by
  refine ⟨by decide, by decide, ?_⟩
  intro h
  have h1 : fingerprintHex c5specA [] = .ok (hashDigest "sha256".toList ["foo.o".toList]) := by
    rfl
  have h2 : fingerprintHex c5specB [] = .ok (hashDigest "sha256".toList ["bar.o".toList]) := by
    rfl
  rw [h1, h2] at h
  exact absurd (Except.ok.inj h) (by decide)

/-- C6: two invocations whose `typed_env` mappings hold the same
`(name, value)` pairs in different insertion orders produce the same
fingerprint, because env entries are hashed sorted by name
(`containerize.py:515, 524-525`). -/
theorem fingerprint_env_order_invariant (spec : CallSpec) (fs : FS)
    (env1 env2 : List (Str × EnvVal)) (hperm : env1.Perm env2)
    (_hnd : (env1.map Prod.fst).Nodup) :
    fingerprintHex { spec with typedEnv := env1 } fs
      = fingerprintHex { spec with typedEnv := env2 } fs := by
  have he : envUpdates env1 = envUpdates env2 := by
    unfold envUpdates
    rw [sortEnv_eq_of_perm env1 env2 hperm]
  unfold fingerprintHex fingerprintStream
  simp only [he]

/-- Closed instance of `fingerprint_env_order_invariant`:
`{"B": "1", "A": "2"}` versus `{"A": "2", "B": "1"}`. -/
theorem fingerprint_env_order_invariant_w :
    fingerprintHex
      { c5specA with typedEnv :=
          [("B".toList, EnvVal.str "1".toList), ("A".toList, EnvVal.str "2".toList)] } []
      = fingerprintHex
        { c5specA with typedEnv :=
            [("A".toList, EnvVal.str "2".toList), ("B".toList, EnvVal.str "1".toList)] } [] :=
  fingerprint_env_order_invariant c5specA []
    [("B".toList, EnvVal.str "1".toList), ("A".toList, EnvVal.str "2".toList)]
    [("A".toList, EnvVal.str "2".toList), ("B".toList, EnvVal.str "1".toList)]
    (by decide) (by decide)

theorem ne_append_of_ne_at (a b x y : Str) (k : Nat) (ha : k < a.length)
    (hb : k < b.length) (hne : a[k]? ≠ b[k]?) : a ++ x ≠ b ++ y := by
  intro h
  have hk := congrArg (fun l => l[k]?) h
  simp only at hk
  rw [List.getElem?_append_left ha, List.getElem?_append_left hb] at hk
  exact hne hk

/-- The message `assert_disjunct_file_sets` raises when some pair of sets
overlaps: the checks run in source order. -/
def disjunctErr (ins outs temps : List Str) : Str :=
  if interNames ins outs ≠ [] then msgInOut (interNames ins outs)
  else if interNames ins temps ≠ [] then msgInTemp (interNames ins temps)
  else msgOutTemp (interNames outs temps)

theorem assertDisjunct_error (ins outs temps : List Str)
    (h : interNames ins outs ≠ [] ∨ interNames ins temps ≠ []
      ∨ interNames outs temps ≠ []) :
    assertDisjunct ins outs temps = .error (disjunctErr ins outs temps) := by
  unfold assertDisjunct disjunctErr
  by_cases h1 : interNames ins outs ≠ []
  · simp [h1]
  · by_cases h2 : interNames ins temps ≠ []
    · simp [h1, h2]
    · have h3 : interNames outs temps ≠ [] := by tauto
      simp [h1, h2, h3]

/-- C4: when the string-form name sets of declared inputs, outputs and temp
directories have a non-empty pairwise intersection, `isolated_call` raises
the corresponding overlap error — a distinct message per pair, checked in the
order input/output, input/temp, output/temp — and the injected `call`
dependency is never invoked. -/
theorem overlap_validation (spec : CallSpec) (fs : FS)
    (child : List Str → List (Str × Str) → Int × FS) (mtimeOf : Str → Str)
    (boxDir : Str) (sc : ScanResult)
    (hscan : scanAll spec.cacheDir.isSome fs spec.typedArgs spec.extraInputs
        spec.extraOutputs = .ok sc)
    (hover : interNames sc.inNames sc.outNames ≠ []
      ∨ interNames sc.inNames sc.tempNames ≠ []
      ∨ interNames sc.outNames sc.tempNames ≠ []) :
    (isolatedCall spec fs child mtimeOf boxDir).result
        = .error (disjunctErr sc.inNames sc.outNames sc.tempNames)
    ∧ (isolatedCall spec fs child mtimeOf boxDir).callInvoked = false
    ∧ (∀ l1 l2, msgInOut l1 ≠ msgInTemp l2)
    ∧ (∀ l1 l2, msgInOut l1 ≠ msgOutTemp l2)
    ∧ (∀ l1 l2, msgInTemp l1 ≠ msgOutTemp l2) := by
  refine ⟨?_, ?_, ?_, ?_, ?_⟩
  · unfold isolatedCall
    rw [hscan]
    simp only [assertDisjunct_error sc.inNames sc.outNames sc.tempNames hover]
  · unfold isolatedCall
    rw [hscan]
    simp only [assertDisjunct_error sc.inNames sc.outNames sc.tempNames hover]
  · intro l1 l2
    exact ne_append_of_ne_at _ _ _ _ 16 (by decide) (by decide) (by decide)
  · intro l1 l2
    exact ne_append_of_ne_at _ _ _ _ 0 (by decide) (by decide) (by decide)
  · intro l1 l2
    exact ne_append_of_ne_at _ _ _ _ 0 (by decide) (by decide) (by decide)

/-- The self-assigning invocation of the repository's own test
(`test_failing_self_assigning_compilation`): `foo.c` declared both as input
and as output. -/
def c4spec : CallSpec :=
  { typedArgs := [TypedArg.exec "/usr/bin/gcc".toList, TypedArg.lit "-c".toList,
      TypedArg.infile "foo.c".toList none, TypedArg.lit "-o".toList,
      TypedArg.outfile "foo.c".toList],
    typedEnv := [], extraInputs := [], extraOutputs := [],
    cacheDir := some "cache".toList, hashName := "sha256".toList,
    shell := false, timeout := none, stripBox := false }

/-- The working directory of the C4 scenario. -/
def c4fs : FS :=
  [("foo.c".toList, "int x;".toList), ("/usr/bin/gcc".toList, "ELF".toList)]

/-- A child that is never reached in the C4 scenario. -/
def c4child : List Str → List (Str × Str) → Int × FS := fun _ _ => (0, [])

/-- Closed instance of `overlap_validation` on the repository's own
input-equals-output test case. -/
theorem overlap_validation_w :
    ((isolatedCall c4spec c4fs c4child (fun _ => "1.0".toList) "/box".toList).result
        = .error (disjunctErr ["foo.c".toList] ["foo.c".toList] [])
    ∧ (isolatedCall c4spec c4fs c4child (fun _ => "1.0".toList) "/box".toList).callInvoked
        = false
    ∧ (∀ l1 l2, msgInOut l1 ≠ msgInTemp l2)
    ∧ (∀ l1 l2, msgInOut l1 ≠ msgOutTemp l2)
    ∧ (∀ l1 l2, msgInTemp l1 ≠ msgOutTemp l2)) :=
  overlap_validation c4spec c4fs c4child (fun _ => "1.0".toList) "/box".toList
    { updates := ["/usr/bin/gcc".toList, "ELF".toList, "-c".toList, "foo.c".toList,
        "int x;".toList, "-o".toList, "foo.c".toList],
      reads := ["/usr/bin/gcc".toList, "foo.c".toList],
      inNames := ["foo.c".toList], outNames := ["foo.c".toList], tempNames := [],
      args := ["/usr/bin/gcc".toList, "-c".toList, "foo.c".toList, "-o".toList,
        "../out/foo.c".toList] }
    (by decide) (by decide)

/-- Without caching, the typed-argument scan performs no filesystem reads at
all: its outcome (including the `AssertionError` on a `TempFilePath`
argument) is independent of the filesystem. -/
theorem scanTypedArgs_nocache_indep (fs fs2 : FS) :
    ∀ (targs : List TypedArg) (acc : ScanResult),
      scanTypedArgs false fs acc targs = scanTypedArgs false fs2 acc targs := by
  intro targs
  induction targs with
  | nil => intro _; rfl
  | cons a rest ih =>
    intro acc
    cases a with
    | infile b u => exact ih _
    | exec p => exact ih _
    | outfile p => exact ih _
    | tmpdir p => exact ih _
    | tmpfile p => rfl
    | lit s0 => exact ih _

theorem scanTypedArgs_nocache_reads (fs : FS) :
    ∀ (targs : List TypedArg) (acc sc : ScanResult),
      scanTypedArgs false fs acc targs = .ok sc → sc.reads = acc.reads := by
  intro targs
  induction targs with
  | nil =>
    intro acc sc h
    rw [← Except.ok.inj h]
  | cons a rest ih =>
    intro acc sc h
    cases a with
    | infile b u =>
      simp only [scanTypedArgs] at h
      have hh := ih _ _ h
      rw [hh]
    | exec p =>
      simp only [scanTypedArgs] at h
      have hh := ih _ _ h
      rw [hh]
    | outfile p =>
      simp only [scanTypedArgs] at h
      have hh := ih _ _ h
      rw [hh]
    | tmpdir p =>
      simp only [scanTypedArgs] at h
      have hh := ih _ _ h
      rw [hh]
    | tmpfile p =>
      simp only [scanTypedArgs] at h
      exact absurd h (by simp)
    | lit s0 =>
      simp only [scanTypedArgs] at h
      have hh := ih _ _ h
      rw [hh]

theorem scanExtras_nocache_indep (fs fs2 : FS) :
    ∀ (extras : List ExtraIn) (acc : ScanResult),
      scanExtras false fs acc extras = scanExtras false fs2 acc extras := by
  intro extras
  induction extras with
  | nil => intro _; rfl
  | cons e rest ih =>
    intro acc
    cases e with
    | bytes bs => exact ih _
    | infile b u => exact ih _

theorem scanExtras_nocache_reads (fs : FS) :
    ∀ (extras : List ExtraIn) (acc sc : ScanResult),
      scanExtras false fs acc extras = .ok sc → sc.reads = acc.reads := by
  intro extras
  induction extras with
  | nil =>
    intro acc sc h
    rw [← Except.ok.inj h]
  | cons e rest ih =>
    intro acc sc h
    cases e with
    | bytes bs =>
      simp only [scanExtras] at h
      have hh := ih _ _ h
      rw [hh]
    | infile b u =>
      simp only [scanExtras] at h
      have hh := ih _ _ h
      rw [hh]

/-- With caching disabled the whole argument scan never opens a file: its
result is the same on every filesystem. -/
theorem scanAll_nocache_indep (fs fs2 : FS) (targs : List TypedArg)
    (extras : List ExtraIn) (eo : List Str) :
    scanAll false fs targs extras eo = scanAll false fs2 targs extras eo := by
  unfold scanAll
  rw [scanTypedArgs_nocache_indep fs fs2 targs emptyScan]
  cases h1 : scanTypedArgs false fs2 emptyScan targs with
  | error e => rfl
  | ok a1 =>
    simp only [scanExtras_nocache_indep fs fs2 extras a1]

theorem scanAll_nocache_reads (fs : FS) (targs : List TypedArg)
    (extras : List ExtraIn) (eo : List Str) (sc : ScanResult)
    (h : scanAll false fs targs extras eo = .ok sc) : sc.reads = [] := by
  unfold scanAll at h
  split at h
  · exact absurd h (by simp)
  · rename_i a1 h1
    split at h
    · exact absurd h (by simp)
    · rename_i a2 h2
      have hsc : sc = { a2 with outNames := eo.foldl addNew a2.outNames } :=
        (Except.ok.inj h).symm
      rw [hsc]
      show a2.reads = []
      rw [scanExtras_nocache_reads fs extras a1 a2 h2,
        scanTypedArgs_nocache_reads fs targs emptyScan a1 h1]
      rfl

theorem runBox_none_fields (spec : CallSpec) (fs : FS)
    (child : List Str → List (Str × Str) → Int × FS) (mtimeOf : Str → Str)
    (boxDir : Str) (sc : ScanResult) (env : List (Str × Str)) :
    (runBox spec fs child mtimeOf boxDir sc env none).callInvoked = true
    ∧ (runBox spec fs child mtimeOf boxDir sc env none).probed = false
    ∧ (runBox spec fs child mtimeOf boxDir sc env none).stored = false
    ∧ (runBox spec fs child mtimeOf boxDir sc env none).hashReads = sc.reads := by
  unfold runBox
  by_cases h : (child sc.args env).1 = 0
  · simp only [h, if_pos]
    generalize (if spec.stripBox = true then
        stripOutFiles (child sc.args env).2 sc.outNames (pjoin boxDir "in".toList ++ ['/'])
      else (child sc.args env).2) = bfs
    cases hmv : (moveOutputs fs bfs sc.outNames).1 with
    | some e => simp [hmv, Option.isSome]
    | none =>
      simp only [hmv]
      split <;> simp [Option.isSome]
  · simp [h, Option.isSome]

/-- A cache-disabled invocation carrying a `TempFilePath` typed argument. -/
def c10bad : CallSpec :=
  { typedArgs := [TypedArg.exec "/usr/bin/gcc".toList,
      TypedArg.tmpfile "scratch.txt".toList],
    typedEnv := [], extraInputs := [], extraOutputs := [],
    cacheDir := none, hashName := "sha256".toList,
    shell := false, timeout := none, stripBox := false }

/-- The child used in the C10 scenarios (never reached in the bad one). -/
def c10child : List Str → List (Str × Str) → Int × FS := fun _ _ => (0, [])

/-- C10 counterexample: even with `cache_dir = None`, `isolated_call` does
NOT always proceed to invoke the `call` dependency — a `TempFilePath` typed
argument matches no `isinstance` branch of the classification loop and trips
`assert isinstance(typed_arg, str)` (`containerize.py:478`), raising before
the sandbox is staged and before `call` runs. -/
theorem caching_disabled_inert_cex :
    c10bad.cacheDir = none
    ∧ (isolatedCall c10bad [] c10child (fun _ => "1.0".toList) "/box".toList).result
        = .error assertMsg
    ∧ (isolatedCall c10bad [] c10child (fun _ => "1.0".toList) "/box".toList).callInvoked
        = false := by
  decide

/-- C10 (amended): with `cache_dir = None`, `isolated_call` never reads the
byte contents of Input or Exec files for hashing — the argument scan's
outcome is the same on every filesystem, so an unreadable input cannot cause
a fingerprint-time failure — and performs no cache probe, load, or store;
and whenever argument classification succeeds and the disjointness check
passes, it proceeds to invoke the `call` dependency.  (It does not always do
so: see `caching_disabled_inert_cex`.) -/
theorem caching_disabled_inert (spec : CallSpec) (fs fs2 : FS)
    (child : List Str → List (Str × Str) → Int × FS) (mtimeOf : Str → Str)
    (boxDir : Str) (hnone : spec.cacheDir = none) :
    scanAll spec.cacheDir.isSome fs spec.typedArgs spec.extraInputs spec.extraOutputs
      = scanAll spec.cacheDir.isSome fs2 spec.typedArgs spec.extraInputs
          spec.extraOutputs
    ∧ (isolatedCall spec fs child mtimeOf boxDir).hashReads = []
    ∧ (isolatedCall spec fs child mtimeOf boxDir).probed = false
    ∧ (isolatedCall spec fs child mtimeOf boxDir).stored = false
    ∧ ∀ sc, scanAll spec.cacheDir.isSome fs spec.typedArgs spec.extraInputs
          spec.extraOutputs = .ok sc →
        assertDisjunct sc.inNames sc.outNames sc.tempNames = .ok () →
        (isolatedCall spec fs child mtimeOf boxDir).callInvoked = true := by
  have hsome : spec.cacheDir.isSome = false := by rw [hnone]; rfl
  constructor
  · rw [hsome]
    exact scanAll_nocache_indep fs fs2 spec.typedArgs spec.extraInputs spec.extraOutputs
  cases hscan : scanAll spec.cacheDir.isSome fs spec.typedArgs spec.extraInputs
      spec.extraOutputs with
  | error e =>
    have heq : isolatedCall spec fs child mtimeOf boxDir
        = ⟨.error e, fs, false, [], false, false⟩ := by
      unfold isolatedCall
      simp only [hscan]
    refine ⟨by rw [heq], by rw [heq], by rw [heq], ?_⟩
    intro sc hsc _
    exact absurd hsc (by simp)
  | ok sc0 =>
    have hreads : sc0.reads = [] := by
      apply scanAll_nocache_reads fs spec.typedArgs spec.extraInputs spec.extraOutputs
      rw [← hsome]
      exact hscan
    cases hd : assertDisjunct sc0.inNames sc0.outNames sc0.tempNames with
    | error m =>
      have heq : isolatedCall spec fs child mtimeOf boxDir
          = ⟨.error m, fs, false, sc0.reads, false, false⟩ := by
        unfold isolatedCall
        simp only [hscan]
        simp only [hd]
      refine ⟨by rw [heq]; exact hreads, by rw [heq], by rw [heq], ?_⟩
      intro sc hsc hdisj
      rw [← Except.ok.inj hsc] at hdisj
      rw [hd] at hdisj
      exact absurd hdisj (by simp)
    | ok u =>
      obtain ⟨hc, hp, hs, hr⟩ := runBox_none_fields spec fs child mtimeOf boxDir sc0
        (envStrs spec.typedEnv)
      have heq : isolatedCall spec fs child mtimeOf boxDir
          = runBox spec fs child mtimeOf boxDir sc0 (envStrs spec.typedEnv) none := by
        unfold isolatedCall
        simp only [hscan]
        simp only [hd]
        simp only [hnone]
      refine ⟨by rw [heq, hr]; exact hreads, by rw [heq]; exact hp,
        by rw [heq]; exact hs, ?_⟩
      intro sc hsc hdisj
      rw [heq]
      exact hc

/-- A concrete cache-disabled invocation for the C10 witness. -/
def c10spec : CallSpec :=
  { typedArgs := [TypedArg.exec "/usr/bin/gcc".toList,
      TypedArg.infile "foo.c".toList none, TypedArg.outfile "foo.o".toList],
    typedEnv := [], extraInputs := [], extraOutputs := [],
    cacheDir := none, hashName := "sha256".toList,
    shell := false, timeout := none, stripBox := false }

/-- Closed instance of `caching_disabled_inert`: the scan result is the same
whether the input file exists (second filesystem) or not (empty first
filesystem). -/
theorem caching_disabled_inert_w :
    scanAll c10spec.cacheDir.isSome [] c10spec.typedArgs c10spec.extraInputs
        c10spec.extraOutputs
      = scanAll c10spec.cacheDir.isSome [("foo.c".toList, "int main;".toList)]
          c10spec.typedArgs c10spec.extraInputs c10spec.extraOutputs
    ∧ (isolatedCall c10spec [] c10child (fun _ => "1.0".toList) "/box".toList).hashReads
        = []
    ∧ (isolatedCall c10spec [] c10child (fun _ => "1.0".toList) "/box".toList).probed
        = false
    ∧ (isolatedCall c10spec [] c10child (fun _ => "1.0".toList) "/box".toList).stored
        = false
    ∧ ∀ sc, scanAll c10spec.cacheDir.isSome [] c10spec.typedArgs c10spec.extraInputs
          c10spec.extraOutputs = .ok sc →
        assertDisjunct sc.inNames sc.outNames sc.tempNames = .ok () →
        (isolatedCall c10spec [] c10child (fun _ => "1.0".toList) "/box".toList).callInvoked
          = true :=
  caching_disabled_inert c10spec [] [("foo.c".toList, "int main;".toList)] c10child
    (fun _ => "1.0".toList) "/box".toList rfl

/-- The scenario-3 invocation (`spec.md` §8, scenario 3; the repo test
`test_failing_undeclared_output_compilation`): `-fstack-usage` makes the child
also produce `foo.su`, which is not declared. -/
def c3spec : CallSpec :=
  { typedArgs := [TypedArg.exec "/usr/bin/gcc".toList,
      TypedArg.lit "-fstack-usage".toList, TypedArg.lit "-c".toList,
      TypedArg.infile "foo.c".toList none, TypedArg.lit "-o".toList,
      TypedArg.outfile "foo.o".toList],
    typedEnv := [], extraInputs := [], extraOutputs := [],
    cacheDir := some "cache".toList, hashName := "sha256".toList,
    shell := false, timeout := none, stripBox := false }

/-- The working directory of the C3 scenario. -/
def c3fs : FS :=
  [("foo.c".toList, "int main;".toList), ("/usr/bin/gcc".toList, "ELF".toList)]

/-- The child of the C3 scenario: exits 0 and leaves the declared `foo.o`
plus the undeclared `foo.su` under the box output dir. -/
def c3child : List Str → List (Str × Str) → Int × FS :=
  fun _ _ => (0, [("foo.o".toList, "OBJ".toList), ("foo.su".toList, "SU".toList)])

/-- The C3 outcome. -/
def c3out : Outcome := isolatedCall c3spec c3fs c3child (fun _ => "1.0".toList) "/box".toList

/-- C3: the undeclared survivor `foo.su` does make `isolated_call` fail with
the error listing the surviving entries — but the declared output `foo.o` has
already been moved into the caller's working directory before the `os.rmdir`
check runs (`move_output_from_box` at `containerize.py:604-606` precedes the
check at 609-616), contradicting the claim (and the repo's own test comment
`no output should be produced`) that no output file reaches the caller's
working directory. -/
theorem undeclared_output_reaches_workdir_cex :
    c3out.result
        = .error (undeclMsg (pjoin "/box".toList "out".toList) ["foo.su".toList])
    ∧ fsRead c3out.fs "foo.o".toList = some "OBJ".toList
    ∧ fsRead c3fs "foo.o".toList = none
    ∧ c3out.callInvoked = true := by
  decide

theorem mmRead_mmInsert (mm : List (Str × (Str × Str))) (k : Str) (v : Str × Str)
    (q : Str) :
    mmRead (mmInsert mm k v) q = if q = k then some v else mmRead mm q := by
  by_cases h : q = k
  · simp [mmInsert, mmRead, h]
  · have h' : k ≠ q := fun hh => h hh.symm
    simp [mmInsert, mmRead, h, h', mmRead_mmErase]

theorem mm_nil_of_reads_none (mm : List (Str × (Str × Str)))
    (h : ∀ k, mmRead mm k = none) : mm = [] := by
  cases mm with
  | nil => rfl
  | cons e mm =>
    have := h e.1
    simp [mmRead] at this

/-- Lookups in a `manifest_map` built from one record per distinct name. -/
theorem buildMM_foldl_read (digf mtf : Str → Str) :
    ∀ (names : List Str), names.Nodup → ∀ (mm0 : List (Str × (Str × Str))) (k : Str),
      mmRead (names.foldl (fun mm n => mmInsert mm n (digf n, mtf n)) mm0) k
        = if k ∈ names then some (digf k, mtf k) else mmRead mm0 k := by
  intro names
  induction names with
  | nil => intro _ mm0 k; simp
  | cons n rest ih =>
    intro hnd mm0 k
    simp only [List.nodup_cons] at hnd
    rw [List.foldl_cons, ih hnd.2]
    by_cases hk : k ∈ rest
    · simp [hk, List.mem_cons]
    · rw [mmRead_mmInsert]
      by_cases hkn : k = n
      · simp [hkn, hk]
      · simp [hk, hkn]

/-- The per-output load loop succeeds without touching the filesystem when
every declared output is present with the digest the manifest records, and
the manifest holds exactly the declared names. -/
theorem loadLoop_hit (hashName : Str) (digf mtf contentOf : Str → Str) :
    ∀ (names : List Str), names.Nodup →
      ∀ (fs : FS) (mm : List (Str × (Str × Str))),
      (∀ n ∈ names, mmRead mm n = some (digf n, mtf n)) →
      (∀ k, mmRead mm k ≠ none → k ∈ names) →
      (∀ n ∈ names, fsRead fs n = some (contentOf n)) →
      (∀ n ∈ names, digf n = fileDigest hashName (contentOf n)) →
      loadLoop hashName fs mm names = (true, fs) := by
  intro names
  induction names with
  | nil =>
    intro _ fs mm _ hcov _ _
    have : mm = [] := by
      apply mm_nil_of_reads_none
      intro k
      by_contra hk
      exact absurd (hcov k hk) (List.not_mem_nil k)
    simp [loadLoop, this]
  | cons n rest ih =>
    intro hnd fs mm hmm hcov hfs hdig
    simp only [List.nodup_cons] at hnd
    have h1 : mmRead mm n = some (digf n, mtf n) := hmm n (by simp)
    have h2 : fsRead fs n = some (contentOf n) := hfs n (by simp)
    have h3 : digf n = fileDigest hashName (contentOf n) := hdig n (by simp)
    simp only [loadLoop, h1, h2]
    rw [if_neg (by simp [h3])]
    apply ih hnd.2 fs (mmErase mm n)
    · intro m hm
      rw [mmRead_mmErase]
      have hmn : m ≠ n := fun hh => hnd.1 (hh ▸ hm)
      simp [hmn, hmm m (by simp [hm])]
    · intro k hk
      rw [mmRead_mmErase] at hk
      by_cases hkn : k = n
      · simp [hkn] at hk
      · simp only [hkn, if_neg, if_false] at hk
        have := hcov k (by simpa [hkn] using hk)
        simpa [hkn] using this
    · exact fun m hm => hfs m (by simp [hm])
    · exact fun m hm => hdig m (by simp [hm])

theorem parseLine_fields (dig mt name : Str) (hd : ' ' ∉ dig) (hm : ' ' ∉ mt)
    (hn : ' ' ∉ name) :
    parseLine (dig ++ ' ' :: (mt ++ ' ' :: name)) = some (dig, mt, name) := by
  unfold parseLine
  rw [splitOnChar_append_sep ' ' dig _ hd, splitOnChar_append_sep ' ' mt _ hm,
    splitOnChar_of_not_mem ' ' name hn]

theorem manifestLine_shape (dig mt name : Str) :
    manifestLine dig mt name = (dig ++ ' ' :: (mt ++ ' ' :: name)) ++ ['\n'] := by
  simp [manifestLine]

theorem newline_not_mem_lineBody (dig mt name : Str) (h : sepFree dig ∧ sepFree mt ∧ sepFree name) :
    '\n' ∉ dig ++ ' ' :: (mt ++ ' ' :: name) := by
  simp only [List.mem_append, List.mem_cons, not_or]
  exact ⟨h.1.2, by simp, h.2.1.2, by simp, h.2.2.2⟩

theorem mapM_parseLine_bodies (entries : List (Str × Str × Str))
    (hwf : ∀ e ∈ entries, sepFree e.1 ∧ sepFree e.2.1 ∧ sepFree e.2.2) :
    (entries.map (fun e => e.1 ++ ' ' :: (e.2.1 ++ ' ' :: e.2.2))).mapM parseLine
      = some entries := by
  induction entries with
  | nil => rfl
  | cons e rest ih =>
    have he := hwf e (by simp)
    simp only [List.map_cons, List.mapM_cons]
    rw [parseLine_fields e.1 e.2.1 e.2.2 he.1.1 he.2.1.1 he.2.2.1,
      ih (fun x hx => hwf x (by simp [hx]))]
    rfl

/-- Parsing a manifest produced by serializing well-formed records gives back
exactly those records. -/
theorem parseManifest_roundtrip (entries : List (Str × Str × Str))
    (hwf : ∀ e ∈ entries, sepFree e.1 ∧ sepFree e.2.1 ∧ sepFree e.2.2) :
    (fileLines ((entries.map (fun e => manifestLine e.1 e.2.1 e.2.2)).flatten)).mapM
        parseLine = some entries := by
  have hshape : entries.map (fun e => manifestLine e.1 e.2.1 e.2.2)
      = (entries.map (fun e => e.1 ++ ' ' :: (e.2.1 ++ ' ' :: e.2.2))).map
          (fun l => l ++ ['\n']) := by
    rw [List.map_map]
    exact List.map_congr_left (fun e _ => manifestLine_shape e.1 e.2.1 e.2.2)
  rw [hshape, fileLines_flatten]
  · exact mapM_parseLine_bodies entries hwf
  · intro l hl
    simp only [List.mem_map] at hl
    obtain ⟨e, he, rfl⟩ := hl
    exact newline_not_mem_lineBody e.1 e.2.1 e.2.2 (hwf e he)

/-- `_try_load_from_cache` reports a hit and leaves the filesystem unchanged
when the work dir already holds every declared output with the manifest's
digest. -/
theorem tryLoad_hit (fs : FS) (manifestFile hashName : Str) (names : List Str)
    (digf mtf contentOf : Str → Str)
    (hm : fsRead fs manifestFile
        = some ((names.map (fun n => manifestLine (digf n) (mtf n) n)).flatten))
    (hnd : names.Nodup)
    (hwf : ∀ n ∈ names, sepFree (digf n) ∧ sepFree (mtf n) ∧ sepFree n)
    (hfs : ∀ n ∈ names, fsRead fs n = some (contentOf n))
    (hdig : ∀ n ∈ names, digf n = fileDigest hashName (contentOf n)) :
    tryLoadFromCache fs manifestFile names hashName = (true, fs) := by
  unfold tryLoadFromCache
  have hm2 : fsRead fs manifestFile
      = some (((names.map (fun n => (digf n, mtf n, n))).map
          (fun e => manifestLine e.1 e.2.1 e.2.2)).flatten) := by
    rw [hm, List.map_map]
    rfl
  rw [hm2]
  show (match (fileLines (((names.map (fun n => (digf n, mtf n, n))).map
      (fun e => manifestLine e.1 e.2.1 e.2.2)).flatten)).mapM parseLine with
    | none => (false, fs)
    | some entries => loadLoop hashName fs (buildMM entries) names) = (true, fs)
  rw [parseManifest_roundtrip _ (by
    intro e he
    simp only [List.mem_map] at he
    obtain ⟨n, hn, rfl⟩ := he
    exact hwf n hn)]
  show loadLoop hashName fs (buildMM (names.map (fun n => (digf n, mtf n, n)))) names
    = (true, fs)
  have hb : buildMM (names.map (fun n => (digf n, mtf n, n)))
      = names.foldl (fun mm n => mmInsert mm n (digf n, mtf n)) [] := by
    unfold buildMM
    rw [List.foldl_map]
  simp only [hb]
  apply loadLoop_hit hashName digf mtf contentOf names hnd fs
  · intro n hn
    rw [buildMM_foldl_read digf mtf names hnd [] n]
    simp [hn]
  · intro k hk
    rw [buildMM_foldl_read digf mtf names hnd [] k] at hk
    by_cases hkm : k ∈ names
    · exact hkm
    · simp [hkm, mmRead] at hk
  · exact hfs
  · exact hdig

theorem fsRead_mapNames (contentOf : Str → Str) :
    ∀ (names : List Str) (n : Str), n ∈ names →
      fsRead (names.map (fun m => (m, contentOf m))) n = some (contentOf n) := by
  intro names
  induction names with
  | nil => intro n hn; simp at hn
  | cons m rest ih =>
    intro n hn
    by_cases hmn : m = n
    · simp [fsRead, hmn]
    · have : n ∈ rest := by
        rcases List.mem_cons.mp hn with h | h
        · exact absurd h.symm hmn
        · exact h
      simp [fsRead, hmn, ih n this]

theorem fsRead_mapNames_none (contentOf : Str → Str) :
    ∀ (names : List Str) (p : Str), p ∉ names →
      fsRead (names.map (fun m => (m, contentOf m))) p = none := by
  intro names
  induction names with
  | nil => intro p _; rfl
  | cons m rest ih =>
    intro p hp
    simp only [List.mem_cons, not_or] at hp
    have hmp : m ≠ p := fun h => hp.1 h.symm
    simp [fsRead, hmp, ih p hp.2]

theorem fsErase_mapNames_head (contentOf : Str → Str) (m : Str) (rest : List Str)
    (hm : m ∉ rest) :
    fsErase (((m :: rest).map (fun x => (x, contentOf x)))) m
      = rest.map (fun x => (x, contentOf x)) := by
  simp only [List.map_cons, fsErase, if_pos]
  exact fsErase_of_fsRead_none _ _ (fsRead_mapNames_none contentOf rest m hm)

/-- `move_output_from_box` succeeds when the box holds exactly the declared
outputs: it moves every output into the working directory, empties the box,
and touches no other path. -/
theorem moveOutputs_spec (contentOf : Str → Str) :
    ∀ (names : List Str), names.Nodup → ∀ (fs : FS),
      (moveOutputs fs (names.map (fun n => (n, contentOf n))) names).1 = none
      ∧ (moveOutputs fs (names.map (fun n => (n, contentOf n))) names).2.2 = []
      ∧ (∀ n ∈ names,
          fsRead (moveOutputs fs (names.map (fun n => (n, contentOf n))) names).2.1 n
            = some (contentOf n))
      ∧ (∀ p, p ∉ names →
          fsRead (moveOutputs fs (names.map (fun n => (n, contentOf n))) names).2.1 p
            = fsRead fs p) := by
  intro names
  induction names with
  | nil =>
    intro _ fs
    exact ⟨rfl, rfl, by simp, fun p _ => rfl⟩
  | cons m rest ih =>
    intro hnd fs
    simp only [List.nodup_cons] at hnd
    have hread : fsRead ((m :: rest).map (fun n => (n, contentOf n))) m
        = some (contentOf m) := fsRead_mapNames contentOf (m :: rest) m (by simp)
    have hstep : moveOutputs fs ((m :: rest).map (fun n => (n, contentOf n))) (m :: rest)
        = moveOutputs (fsWrite fs m (contentOf m))
            (rest.map (fun n => (n, contentOf n))) rest := by
      show (match fsRead ((m :: rest).map (fun n => (n, contentOf n))) m with
        | some c => moveOutputs (fsWrite fs m c)
            (fsErase ((m :: rest).map (fun n => (n, contentOf n))) m) rest
        | none => (some (fnfMsg m), fs, (m :: rest).map (fun n => (n, contentOf n))))
        = _
      rw [hread, fsErase_mapNames_head contentOf m rest hnd.1]
    obtain ⟨h1, h2, h3, h4⟩ := ih hnd.2 (fsWrite fs m (contentOf m))
    rw [hstep]
    refine ⟨h1, h2, ?_, ?_⟩
    · intro n hn
      rcases List.mem_cons.mp hn with rfl | hn'
      · rw [h4 n hnd.1]
        exact fsRead_fsWrite_self fs n (contentOf n)
      · exact h3 n hn'
    · intro p hp
      simp only [List.mem_cons, not_or] at hp
      rw [h4 p hp.2]
      exact fsRead_fsWrite_ne fs m (contentOf m) p hp.1

/-- The paths a store operation writes (or removes). -/
def opWrites : StoreOp → List Str
  | .trunc q => [q]
  | .copyA d _ => [d, tmpName d]
  | .appendL q _ => [q]

theorem fsRead_applyOp_frame (fs : FS) (op : StoreOp) (p : Str)
    (h : ∀ q ∈ opWrites op, p ≠ q) :
    fsRead (applyOp fs op) p = fsRead fs p := by
  cases op with
  | trunc q =>
    exact fsRead_fsWrite_ne fs q [] p (h q (by simp [opWrites]))
  | copyA d c =>
    exact fsRead_applyOp_copyA fs d c p (h (tmpName d) (by simp [opWrites]))
      (h d (by simp [opWrites]))
  | appendL q l =>
    show fsRead (match fsRead fs q with
      | some cur => fsWrite fs q (cur ++ l)
      | none => fs) p = fsRead fs p
    cases hq : fsRead fs q with
    | none => rfl
    | some cur => exact fsRead_fsWrite_ne fs q (cur ++ l) p (h q (by simp [opWrites]))

theorem fsRead_applyOps_frame (p : Str) :
    ∀ (ops : List StoreOp) (fs : FS), (∀ op ∈ ops, ∀ q ∈ opWrites op, p ≠ q) →
      fsRead (applyOps fs ops) p = fsRead fs p := by
  intro ops
  induction ops with
  | nil => intro fs _; rfl
  | cons op rest ih =>
    intro fs h
    show fsRead (applyOps (applyOp fs op) rest) p = fsRead fs p
    rw [ih (applyOp fs op) (fun o ho => h o (by simp [ho])),
      fsRead_applyOp_frame fs op p (h op (by simp))]

/-- Every path the store loop writes is either the manifest path or an
artifact path (or its sibling temp). -/
theorem storeOpsLoop_writes (hashName artifactsDir manifestFile : Str)
    (mtimeOf : Str → Str) (boxFs : FS) (P : Str → Prop)
    (hPmf : P manifestFile) (hPart : ∀ d, P (pjoin artifactsDir d))
    (hPtmp : ∀ d, P (tmpName (pjoin artifactsDir d))) :
    ∀ (names : List Str) (fs : FS),
      ∀ op ∈ (storeOpsLoop hashName artifactsDir manifestFile mtimeOf boxFs fs names).2,
        ∀ q ∈ opWrites op, P q := by
  intro names
  induction names with
  | nil => intro fs op hop; simp [storeOpsLoop] at hop
  | cons n rest ih =>
    intro fs op hop
    unfold storeOpsLoop at hop
    cases hc : fsRead boxFs n with
    | none => rw [hc] at hop; simp at hop
    | some c =>
      rw [hc] at hop
      simp only [List.cons_append, List.nil_append, List.mem_cons] at hop
      rcases hop with rfl | rfl | hop
      · intro q hq
        simp only [opWrites, List.mem_cons, List.not_mem_nil, or_false] at hq
        rcases hq with rfl | rfl
        · exact hPart _
        · exact hPtmp _
      · intro q hq
        simp only [opWrites, List.mem_cons, List.not_mem_nil, or_false] at hq
        rw [hq]
        exact hPmf
      · exact ih _ op hop

theorem startsWithStr_append_both (a x y : Str) :
    startsWithStr (a ++ x) (a ++ y) = startsWithStr x y := by
  induction a with
  | nil => rfl
  | cons c as ih => simp [startsWithStr, ih]

/-- A path lies under the cache directory. -/
def cdPre (cd p : Str) : Prop := ∃ t, p = (cd ++ ['/']) ++ t

theorem cdPre_pjoin (cd x : Str) (h : cd ≠ []) : cdPre cd (pjoin cd x) :=
  ⟨x, by simp [pjoin, h]⟩

theorem cdPre_extend (cd p x : Str) (hp : cdPre cd p) : cdPre cd (pjoin p x) := by
  obtain ⟨t, rfl⟩ := hp
  refine ⟨t ++ '/' :: x, ?_⟩
  have hne : (cd ++ ['/']) ++ t ≠ [] := by simp
  simp [pjoin, hne]

theorem cdPre_append (cd p x : Str) (hp : cdPre cd p) : cdPre cd (p ++ x) := by
  obtain ⟨t, rfl⟩ := hp
  exact ⟨t ++ x, by simp⟩

theorem cdPre_tmpName (cd p : Str) (hp : cdPre cd p) : cdPre cd (tmpName p) :=
  cdPre_append cd p ".tmp".toList hp

theorem startsWithStr_of_cdPre (cd p : Str) (hp : cdPre cd p) :
    startsWithStr (cd ++ ['/']) p = true := by
  obtain ⟨t, rfl⟩ := hp
  exact startsWithStr_append (cd ++ ['/']) t

theorem ne_of_cdPre (cd p q : Str) (hp : startsWithStr (cd ++ ['/']) p = false)
    (hq : cdPre cd q) : p ≠ q := by
  obtain ⟨t, rfl⟩ := hq
  exact ne_of_startsWithStr_false _ _ hp t

theorem scanTypedArgs_reads_extend (fs : FS) :
    ∀ (targs : List TypedArg) (acc sc : ScanResult),
      scanTypedArgs true fs acc targs = .ok sc → ∃ t, sc.reads = acc.reads ++ t := by
  intro targs
  induction targs with
  | nil =>
    intro acc sc h
    have : acc = sc := Except.ok.inj h
    exact ⟨[], by rw [← this]; simp⟩
  | cons a rest ih =>
    intro acc sc h
    cases a with
    | infile b u =>
      simp only [scanTypedArgs, if_true] at h
      cases hr : fsRead fs (inUnboxed b u) with
      | none => rw [hr] at h; exact absurd h (by simp)
      | some content =>
        rw [hr] at h
        obtain ⟨t, ht⟩ := ih _ _ h
        exact ⟨inUnboxed b u :: t, by simp [ht]⟩
    | exec p =>
      simp only [scanTypedArgs, if_true] at h
      cases hr : fsRead fs p with
      | none => rw [hr] at h; exact absurd h (by simp)
      | some content =>
        rw [hr] at h
        obtain ⟨t, ht⟩ := ih _ _ h
        exact ⟨p :: t, by simp [ht]⟩
    | outfile p =>
      simp only [scanTypedArgs] at h
      obtain ⟨t, ht⟩ := ih _ _ h
      exact ⟨t, ht⟩
    | tmpdir p =>
      simp only [scanTypedArgs] at h
      obtain ⟨t, ht⟩ := ih _ _ h
      exact ⟨t, ht⟩
    | tmpfile p =>
      simp only [scanTypedArgs] at h
      exact absurd h (by simp)
    | lit s0 =>
      simp only [scanTypedArgs] at h
      obtain ⟨t, ht⟩ := ih _ _ h
      exact ⟨t, ht⟩

theorem scanTypedArgs_congr (fs fs' : FS) :
    ∀ (targs : List TypedArg) (acc sc : ScanResult),
      scanTypedArgs true fs acc targs = .ok sc →
      (∀ p ∈ sc.reads, fsRead fs' p = fsRead fs p) →
      scanTypedArgs true fs' acc targs = .ok sc := by
  intro targs
  induction targs with
  | nil => intro acc sc h _; exact h
  | cons a rest ih =>
    intro acc sc h hag
    cases a with
    | infile b u =>
      simp only [scanTypedArgs, if_true] at h ⊢
      cases hr : fsRead fs (inUnboxed b u) with
      | none => rw [hr] at h; exact absurd h (by simp)
      | some content =>
        rw [hr] at h
        obtain ⟨t, ht⟩ := scanTypedArgs_reads_extend fs rest _ _ h
        have hmem : inUnboxed b u ∈ sc.reads := by
          rw [ht]; simp
        rw [hag _ hmem, hr]
        exact ih _ _ h hag
    | exec p =>
      simp only [scanTypedArgs, if_true] at h ⊢
      cases hr : fsRead fs p with
      | none => rw [hr] at h; exact absurd h (by simp)
      | some content =>
        rw [hr] at h
        obtain ⟨t, ht⟩ := scanTypedArgs_reads_extend fs rest _ _ h
        have hmem : p ∈ sc.reads := by
          rw [ht]; simp
        rw [hag _ hmem, hr]
        exact ih _ _ h hag
    | outfile p =>
      simp only [scanTypedArgs] at h ⊢
      exact ih _ _ h hag
    | tmpdir p =>
      simp only [scanTypedArgs] at h ⊢
      exact ih _ _ h hag
    | tmpfile p =>
      simp only [scanTypedArgs] at h
      exact absurd h (by simp)
    | lit s0 =>
      simp only [scanTypedArgs] at h ⊢
      exact ih _ _ h hag

theorem scanExtras_reads_extend (fs : FS) :
    ∀ (extras : List ExtraIn) (acc sc : ScanResult),
      scanExtras true fs acc extras = .ok sc → ∃ t, sc.reads = acc.reads ++ t := by
  intro extras
  induction extras with
  | nil =>
    intro acc sc h
    have : acc = sc := Except.ok.inj h
    exact ⟨[], by rw [← this]; simp⟩
  | cons e rest ih =>
    intro acc sc h
    cases e with
    | bytes bs =>
      simp only [scanExtras] at h
      obtain ⟨t, ht⟩ := ih _ _ h
      exact ⟨t, ht⟩
    | infile b u =>
      simp only [scanExtras, if_true] at h
      cases hr : fsRead fs (inUnboxed b u) with
      | none => rw [hr] at h; exact absurd h (by simp)
      | some content =>
        rw [hr] at h
        obtain ⟨t, ht⟩ := ih _ _ h
        exact ⟨inUnboxed b u :: t, by simp [ht]⟩

theorem scanExtras_congr (fs fs' : FS) :
    ∀ (extras : List ExtraIn) (acc sc : ScanResult),
      scanExtras true fs acc extras = .ok sc →
      (∀ p ∈ sc.reads, fsRead fs' p = fsRead fs p) →
      scanExtras true fs' acc extras = .ok sc := by
  intro extras
  induction extras with
  | nil => intro acc sc h _; exact h
  | cons e rest ih =>
    intro acc sc h hag
    cases e with
    | bytes bs =>
      simp only [scanExtras] at h ⊢
      exact ih _ _ h hag
    | infile b u =>
      simp only [scanExtras, if_true] at h ⊢
      cases hr : fsRead fs (inUnboxed b u) with
      | none => rw [hr] at h; exact absurd h (by simp)
      | some content =>
        rw [hr] at h
        obtain ⟨t, ht⟩ := scanExtras_reads_extend fs rest _ _ h
        have hmem : inUnboxed b u ∈ sc.reads := by
          rw [ht]; simp
        rw [hag _ hmem, hr]
        exact ih _ _ h hag

/-- The argument scan is a function of the file contents it actually reads:
re-running it on a filesystem that agrees on those paths gives the same
result. -/
theorem scanAll_congr (fs fs' : FS) (targs : List TypedArg) (extras : List ExtraIn)
    (eo : List Str) (sc : ScanResult)
    (h : scanAll true fs targs extras eo = .ok sc)
    (hag : ∀ p ∈ sc.reads, fsRead fs' p = fsRead fs p) :
    scanAll true fs' targs extras eo = .ok sc := by
  unfold scanAll at h ⊢
  split at h
  · exact absurd h (by simp)
  · rename_i a1 h1
    split at h
    · exact absurd h (by simp)
    · rename_i a2 h2
      have hsc : sc = { a2 with outNames := eo.foldl addNew a2.outNames } :=
        (Except.ok.inj h).symm
      have hreads2 : sc.reads = a2.reads := by rw [hsc]
      obtain ⟨t2, ht2⟩ := scanExtras_reads_extend fs extras a1 a2 h2
      have hag2 : ∀ p ∈ a2.reads, fsRead fs' p = fsRead fs p := by
        intro p hp
        exact hag p (by rw [hreads2]; exact hp)
      have hag1 : ∀ p ∈ a1.reads, fsRead fs' p = fsRead fs p := by
        intro p hp
        exact hag2 p (by rw [ht2]; simp [hp])
      rw [scanTypedArgs_congr fs fs' targs emptyScan a1 h1 hag1]
      show (match scanExtras true fs' a1 extras with
        | Except.error e => Except.error e
        | Except.ok a2 =>
          Except.ok { a2 with outNames := eo.foldl addNew a2.outNames }) = Except.ok sc
      rw [scanExtras_congr fs fs' extras a1 a2 h2 hag2]
      exact h

theorem addNew_nodup (l : List Str) (x : Str) (h : l.Nodup) : (addNew l x).Nodup := by
  by_cases hx : x ∈ l
  · simpa [addNew, hx] using h
  · simp only [addNew, hx, if_neg, not_false_iff]
    rw [List.nodup_append]
    refine ⟨h, by simp, ?_⟩
    intro a ha hax
    simp only [List.mem_singleton] at hax
    exact hx (hax ▸ ha)

theorem foldl_addNew_nodup :
    ∀ (eo : List Str) (l : List Str), l.Nodup → (eo.foldl addNew l).Nodup := by
  intro eo
  induction eo with
  | nil => exact fun l h => h
  | cons x rest ih => exact fun l h => ih (addNew l x) (addNew_nodup l x h)

theorem scanTypedArgs_outNodup (fs : FS) :
    ∀ (targs : List TypedArg) (acc sc : ScanResult),
      scanTypedArgs true fs acc targs = .ok sc → acc.outNames.Nodup →
      sc.outNames.Nodup := by
  intro targs
  induction targs with
  | nil =>
    intro acc sc h hn
    rw [← Except.ok.inj h]
    exact hn
  | cons a rest ih =>
    intro acc sc h hn
    cases a with
    | infile b u =>
      simp only [scanTypedArgs, if_true] at h
      cases hr : fsRead fs (inUnboxed b u) with
      | none => rw [hr] at h; exact absurd h (by simp)
      | some content =>
        rw [hr] at h
        exact ih _ _ h hn
    | exec p =>
      simp only [scanTypedArgs, if_true] at h
      cases hr : fsRead fs p with
      | none => rw [hr] at h; exact absurd h (by simp)
      | some content =>
        rw [hr] at h
        exact ih _ _ h hn
    | outfile p =>
      simp only [scanTypedArgs] at h
      exact ih _ _ h (addNew_nodup acc.outNames p hn)
    | tmpdir p =>
      simp only [scanTypedArgs] at h
      exact ih _ _ h hn
    | tmpfile p =>
      simp only [scanTypedArgs] at h
      exact absurd h (by simp)
    | lit s0 =>
      simp only [scanTypedArgs] at h
      exact ih _ _ h hn

theorem scanExtras_outEq (fs : FS) :
    ∀ (extras : List ExtraIn) (acc sc : ScanResult),
      scanExtras true fs acc extras = .ok sc → sc.outNames = acc.outNames := by
  intro extras
  induction extras with
  | nil =>
    intro acc sc h
    rw [← Except.ok.inj h]
  | cons e rest ih =>
    intro acc sc h
    cases e with
    | bytes bs =>
      simp only [scanExtras] at h
      have hh := ih _ _ h
      rw [hh]
    | infile b u =>
      simp only [scanExtras, if_true] at h
      cases hr : fsRead fs (inUnboxed b u) with
      | none => rw [hr] at h; exact absurd h (by simp)
      | some content =>
        rw [hr] at h
        have hh := ih _ _ h
        rw [hh]

/-- The declared output set collected by a (caching) scan has no duplicate
names: it models a Python `set`. -/
theorem scanAll_outNodup (fs : FS) (targs : List TypedArg) (extras : List ExtraIn)
    (eo : List Str) (sc : ScanResult)
    (h : scanAll true fs targs extras eo = .ok sc) : sc.outNames.Nodup := by
  unfold scanAll at h
  split at h
  · exact absurd h (by simp)
  · rename_i a1 h1
    split at h
    · exact absurd h (by simp)
    · rename_i a2 h2
      have hsc : sc = { a2 with outNames := eo.foldl addNew a2.outNames } :=
        (Except.ok.inj h).symm
      rw [hsc]
      apply foldl_addNew_nodup
      rw [scanExtras_outEq fs extras a1 a2 h2]
      exact scanTypedArgs_outNodup fs targs emptyScan a1 h1 (by simp [emptyScan])

theorem startsWithStr_false_cons (a b : Char) (x y : Str) (h : ¬a = b) :
    startsWithStr (a :: x) (b :: y) = false := by
  simp [startsWithStr, h]

theorem artifacts_not_pre_manifests (x0 y0 : Str) :
    startsWithStr ("artifacts".toList ++ x0) ("manifests".toList ++ y0) = false := by
  have hx : "artifacts".toList = 'a' :: "rtifacts".toList := rfl
  have hy : "manifests".toList = 'm' :: "anifests".toList := rfl
  rw [hx, hy, List.cons_append, List.cons_append]
  exact startsWithStr_false_cons 'a' 'm' _ _ (by decide)

theorem cdPre_manifestPath (cd hashName : Str) (updates : List Str) (h : cd ≠ []) :
    cdPre cd (manifestPath cd hashName updates) :=
  cdPre_extend _ _ _ (cdPre_extend _ _ _ (cdPre_pjoin cd _ h))

theorem cdPre_artifactsPath (cd hashName : Str) (h : cd ≠ []) :
    cdPre cd (artifactsPath cd hashName) :=
  cdPre_extend _ _ _ (cdPre_pjoin cd _ h)

theorem artifactsPath_ne_nil (cd hashName : Str) (h : cd ≠ []) :
    artifactsPath cd hashName ≠ [] := by
  obtain ⟨t, ht⟩ := cdPre_artifactsPath cd hashName h
  rw [ht]
  simp

/-- The manifest file never lies under the artifacts directory: the two
subtrees of the cache differ right after `<cache_dir>/`. -/
theorem manifest_not_under_artifacts (cd hashName : Str) (updates : List Str)
    (h : cd ≠ []) :
    startsWithStr (artifactsPath cd hashName ++ ['/'])
      (manifestPath cd hashName updates) = false := by
  have hA : pjoin cd "manifests".toList ≠ [] := by simp [pjoin, h]
  have hB : pjoin (pjoin cd "manifests".toList)
      ((hashDigest hashName updates).take 2) ≠ [] := by
    simp [pjoin, h, hA]
  have had_eq : artifactsPath cd hashName ++ ['/']
      = (cd ++ ['/']) ++ ("artifacts".toList ++ ('/' :: hashName ++ ['/'])) := by
    simp [artifactsPath, pjoin, h]
  have hmf_eq : manifestPath cd hashName updates
      = (cd ++ ['/']) ++ ("manifests".toList
          ++ ('/' :: (hashDigest hashName updates).take 2
            ++ '/' :: (hashDigest hashName updates ++ "-output.manifest".toList))) := by
    simp [manifestPath, pjoin, h, hA, hB]
  rw [had_eq, hmf_eq, startsWithStr_append_both]
  exact artifacts_not_pre_manifests _ _

/-- On exit zero with a cache, `runBox` stores, moves every declared output
into the working directory, passes the undeclared-output check (the child
produced exactly the declared outputs), and returns success. -/
theorem runBox_success_eq (spec : CallSpec) (fs : FS)
    (child : List Str → List (Str × Str) → Int × FS) (mtimeOf : Str → Str)
    (boxDir : Str) (sc : ScanResult) (env : List (Str × Str)) (mf ad : Str)
    (contentOf : Str → Str)
    (hchild : child sc.args env = (0, sc.outNames.map (fun n => (n, contentOf n))))
    (hnd : sc.outNames.Nodup)
    (htmpn : ∀ n ∈ sc.outNames, tmpName n ∉ sc.outNames) :
    runBox spec fs child mtimeOf boxDir sc env (some (mf, ad)) =
      ⟨.ok 0,
        (moveOutputs
          (applyOps fs
            (storeIntoCache fs (sc.outNames.map (fun n => (n, contentOf n)))
              sc.outNames ad mf spec.hashName mtimeOf).2)
          (sc.outNames.map (fun n => (n, contentOf n))) sc.outNames).2.1,
        true, sc.reads, true, true⟩ := by
  have hstrip : (if spec.stripBox = true then
      stripOutFiles (sc.outNames.map (fun n => (n, contentOf n))) sc.outNames
        (pjoin boxDir "in".toList ++ ['/'])
    else (sc.outNames.map (fun n => (n, contentOf n))))
      = sc.outNames.map (fun n => (n, contentOf n)) := by
    split
    · exact stripOutFiles_id _ _ _
        (fun n hn => fsRead_mapNames_none contentOf sc.outNames (tmpName n) (htmpn n hn))
    · rfl
  obtain ⟨hmv1, hmv2, _, _⟩ := moveOutputs_spec contentOf sc.outNames hnd
    (applyOps fs
      (storeIntoCache fs (sc.outNames.map (fun n => (n, contentOf n)))
        sc.outNames ad mf spec.hashName mtimeOf).2)
  simp only [runBox, hchild, hstrip, hmv1, hmv2]
  simp

/-- `isolated_call` with a cache dir, after a successful scan and
disjointness check, is the cache probe followed (on a miss) by the sandbox
run. -/
theorem isolatedCall_cached_eq (spec : CallSpec) (fs0 : FS)
    (child : List Str → List (Str × Str) → Int × FS) (mtimeOf : Str → Str)
    (boxDir : Str) (cd : Str) (sc : ScanResult)
    (hcd : spec.cacheDir = some cd)
    (hscan : scanAll spec.cacheDir.isSome fs0 spec.typedArgs spec.extraInputs
        spec.extraOutputs = .ok sc)
    (hdisj : assertDisjunct sc.inNames sc.outNames sc.tempNames = .ok ()) :
    isolatedCall spec fs0 child mtimeOf boxDir =
      (match tryLoadFromCache fs0
          (manifestPath cd spec.hashName (sc.updates ++ envUpdates spec.typedEnv))
          sc.outNames spec.hashName with
       | (true, fs1) => ⟨.ok 0, fs1, false, sc.reads, true, false⟩
       | (false, fs1) =>
         runBox spec fs1 child mtimeOf boxDir sc (envStrs spec.typedEnv)
           (some (manifestPath cd spec.hashName (sc.updates ++ envUpdates spec.typedEnv),
             artifactsPath cd spec.hashName))) := by
  unfold isolatedCall
  simp only [hscan]
  simp only [hdisj]
  simp only [hcd]

/-- C1: replay / cache hit.  Run an invocation with caching against a fresh
cache, a child that exits 0 producing exactly the declared outputs, and
declared outputs whose names are manifest-safe and disjoint from the cache
subtree and from the fingerprinted read paths.  The first call succeeds and
invokes `call`; afterwards any second `isolated_call` with the same spec
(byte-identical typed args, extra inputs, env, hash name — and, since the
first run did not touch the fingerprinted input/executable paths, the same
file contents) returns exit status 0 without invoking its `call` dependency,
changes nothing on disk, and leaves every declared output in the caller's
working directory byte-identical to the first run's outputs. -/
theorem replay_cache_hit (spec : CallSpec) (fs0 : FS)
    (child : List Str → List (Str × Str) → Int × FS)
    (mtimeOf : Str → Str) (boxDir : Str) (cd : Str) (sc : ScanResult)
    (contentOf : Str → Str)
    (hcd : spec.cacheDir = some cd) (hcdne : cd ≠ [])
    (hscan : scanAll spec.cacheDir.isSome fs0 spec.typedArgs spec.extraInputs
        spec.extraOutputs = .ok sc)
    (hdisj : assertDisjunct sc.inNames sc.outNames sc.tempNames = .ok ())
    (hchild : child sc.args (envStrs spec.typedEnv)
        = (0, sc.outNames.map (fun n => (n, contentOf n))))
    (hhn : sepFree spec.hashName)
    (hwfn : ∀ n ∈ sc.outNames, sepFree n)
    (hmt : ∀ n ∈ sc.outNames, sepFree (mtimeOf n))
    (houtcd : ∀ n ∈ sc.outNames, startsWithStr (cd ++ ['/']) n = false)
    (htmpn : ∀ n ∈ sc.outNames, tmpName n ∉ sc.outNames)
    (hreads : ∀ p ∈ sc.reads, p ∉ sc.outNames
      ∧ startsWithStr (cd ++ ['/']) p = false)
    (hfresh : ∀ p, startsWithStr (cd ++ ['/']) p = true → fsRead fs0 p = none) :
    (isolatedCall spec fs0 child mtimeOf boxDir).result = .ok 0
    ∧ (isolatedCall spec fs0 child mtimeOf boxDir).callInvoked = true
    ∧ (∀ n ∈ sc.outNames,
        fsRead (isolatedCall spec fs0 child mtimeOf boxDir).fs n = some (contentOf n))
    ∧ ∀ (child2 : List Str → List (Str × Str) → Int × FS) (mtimeOf2 : Str → Str)
        (boxDir2 : Str),
        (isolatedCall spec (isolatedCall spec fs0 child mtimeOf boxDir).fs child2
            mtimeOf2 boxDir2).result = .ok 0
        ∧ (isolatedCall spec (isolatedCall spec fs0 child mtimeOf boxDir).fs child2
            mtimeOf2 boxDir2).callInvoked = false
        ∧ (isolatedCall spec (isolatedCall spec fs0 child mtimeOf boxDir).fs child2
            mtimeOf2 boxDir2).fs = (isolatedCall spec fs0 child mtimeOf boxDir).fs := by
  have hsome : spec.cacheDir.isSome = true := by rw [hcd]; rfl
  have hscan' : scanAll true fs0 spec.typedArgs spec.extraInputs spec.extraOutputs
      = .ok sc := by rw [← hsome]; exact hscan
  have hnd : sc.outNames.Nodup :=
    scanAll_outNodup fs0 spec.typedArgs spec.extraInputs spec.extraOutputs sc hscan'
  -- cache paths of this fingerprint
  have hmfpre : cdPre cd (manifestPath cd spec.hashName
      (sc.updates ++ envUpdates spec.typedEnv)) :=
    cdPre_manifestPath cd spec.hashName _ hcdne
  have hadpre : cdPre cd (artifactsPath cd spec.hashName) :=
    cdPre_artifactsPath cd spec.hashName hcdne
  have hadne : artifactsPath cd spec.hashName ≠ [] :=
    artifactsPath_ne_nil cd spec.hashName hcdne
  have hmf_not_art : startsWithStr (artifactsPath cd spec.hashName ++ ['/'])
      (manifestPath cd spec.hashName (sc.updates ++ envUpdates spec.typedEnv)) = false :=
    manifest_not_under_artifacts cd spec.hashName _ hcdne
  -- run 1: cache probe misses on the fresh cache
  have hload1 : tryLoadFromCache fs0
      (manifestPath cd spec.hashName (sc.updates ++ envUpdates spec.typedEnv))
      sc.outNames spec.hashName = (false, fs0) := by
    unfold tryLoadFromCache
    rw [hfresh _ (startsWithStr_of_cdPre cd _ hmfpre)]
  -- the box contents after the child ran
  have hboxne : ∀ n ∈ sc.outNames,
      fsRead (sc.outNames.map (fun n => (n, contentOf n))) n ≠ none := by
    intro n hn
    rw [fsRead_mapNames contentOf sc.outNames n hn]
    simp
  -- the store writes the manifest records in place
  have hstart : fsRead (applyOp fs0 (StoreOp.trunc (manifestPath cd spec.hashName
      (sc.updates ++ envUpdates spec.typedEnv))))
      (manifestPath cd spec.hashName (sc.updates ++ envUpdates spec.typedEnv))
      = some [] := fsRead_fsWrite_self fs0 _ []
  obtain ⟨hsb, hloopMf, _⟩ := storeOpsLoop_spec spec.hashName
    (artifactsPath cd spec.hashName)
    (manifestPath cd spec.hashName (sc.updates ++ envUpdates spec.typedEnv))
    mtimeOf (sc.outNames.map (fun n => (n, contentOf n))) hadne hmf_not_art
    sc.outNames
    (applyOp fs0 (StoreOp.trunc (manifestPath cd spec.hashName
      (sc.updates ++ envUpdates spec.typedEnv)))) [] hboxne hstart
  have hstoreMf : fsRead (applyOps fs0
      (storeIntoCache fs0 (sc.outNames.map (fun n => (n, contentOf n))) sc.outNames
        (artifactsPath cd spec.hashName)
        (manifestPath cd spec.hashName (sc.updates ++ envUpdates spec.typedEnv))
        spec.hashName mtimeOf).2)
      (manifestPath cd spec.hashName (sc.updates ++ envUpdates spec.typedEnv))
      = some ((sc.outNames.map (fun n =>
          manifestLine (fileDigest spec.hashName (contentOf n)) (mtimeOf n) n)).flatten) := by
    show fsRead (applyOps (applyOp fs0 (StoreOp.trunc (manifestPath cd spec.hashName
        (sc.updates ++ envUpdates spec.typedEnv))))
      (storeOpsLoop spec.hashName (artifactsPath cd spec.hashName)
        (manifestPath cd spec.hashName (sc.updates ++ envUpdates spec.typedEnv))
        mtimeOf (sc.outNames.map (fun n => (n, contentOf n)))
        (applyOp fs0 (StoreOp.trunc (manifestPath cd spec.hashName
          (sc.updates ++ envUpdates spec.typedEnv)))) sc.outNames).2) _ = _
    rw [hloopMf]
    rw [List.nil_append]
    have hmap : sc.outNames.map (fun n =>
        manifestLine (fileDigest spec.hashName
          ((fsRead (sc.outNames.map (fun n => (n, contentOf n))) n).getD []))
          (mtimeOf n) n)
        = sc.outNames.map (fun n =>
            manifestLine (fileDigest spec.hashName (contentOf n)) (mtimeOf n) n) :=
      List.map_congr_left (fun n hn => by
        rw [fsRead_mapNames contentOf sc.outNames n hn]
        rfl)
    rw [hmap]
  -- the store touches only cache-internal paths
  have hframe : ∀ p, startsWithStr (cd ++ ['/']) p = false →
      fsRead (applyOps fs0
        (storeIntoCache fs0 (sc.outNames.map (fun n => (n, contentOf n))) sc.outNames
          (artifactsPath cd spec.hashName)
          (manifestPath cd spec.hashName (sc.updates ++ envUpdates spec.typedEnv))
          spec.hashName mtimeOf).2) p = fsRead fs0 p := by
    intro p hp
    apply fsRead_applyOps_frame
    intro op hop q hq
    have hops : (storeIntoCache fs0 (sc.outNames.map (fun n => (n, contentOf n)))
        sc.outNames (artifactsPath cd spec.hashName)
        (manifestPath cd spec.hashName (sc.updates ++ envUpdates spec.typedEnv))
        spec.hashName mtimeOf).2
        = StoreOp.trunc (manifestPath cd spec.hashName
            (sc.updates ++ envUpdates spec.typedEnv))
          :: (storeOpsLoop spec.hashName (artifactsPath cd spec.hashName)
            (manifestPath cd spec.hashName (sc.updates ++ envUpdates spec.typedEnv))
            mtimeOf (sc.outNames.map (fun n => (n, contentOf n)))
            (applyOp fs0 (StoreOp.trunc (manifestPath cd spec.hashName
              (sc.updates ++ envUpdates spec.typedEnv)))) sc.outNames).2 := rfl
    rw [hops] at hop
    rcases List.mem_cons.mp hop with rfl | hop
    · simp only [opWrites, List.mem_cons, List.not_mem_nil, or_false] at hq
      rw [hq]
      exact ne_of_cdPre cd p _ hp hmfpre
    · have hcdq := storeOpsLoop_writes spec.hashName (artifactsPath cd spec.hashName)
        (manifestPath cd spec.hashName (sc.updates ++ envUpdates spec.typedEnv))
        mtimeOf (sc.outNames.map (fun n => (n, contentOf n))) (cdPre cd) hmfpre
        (fun d => cdPre_extend cd _ d hadpre)
        (fun d => cdPre_tmpName cd _ (cdPre_extend cd _ d hadpre))
        sc.outNames _ op hop q hq
      exact ne_of_cdPre cd p q hp hcdq
  -- moving the outputs out of the box
  obtain ⟨_, _, hmv3, hmv4⟩ := moveOutputs_spec contentOf sc.outNames hnd
    (applyOps fs0
      (storeIntoCache fs0 (sc.outNames.map (fun n => (n, contentOf n))) sc.outNames
        (artifactsPath cd spec.hashName)
        (manifestPath cd spec.hashName (sc.updates ++ envUpdates spec.typedEnv))
        spec.hashName mtimeOf).2)
  -- the run-1 outcome
  have hrun1 : isolatedCall spec fs0 child mtimeOf boxDir
      = ⟨.ok 0,
          (moveOutputs
            (applyOps fs0
              (storeIntoCache fs0 (sc.outNames.map (fun n => (n, contentOf n)))
                sc.outNames (artifactsPath cd spec.hashName)
                (manifestPath cd spec.hashName (sc.updates ++ envUpdates spec.typedEnv))
                spec.hashName mtimeOf).2)
            (sc.outNames.map (fun n => (n, contentOf n))) sc.outNames).2.1,
          true, sc.reads, true, true⟩ := by
    rw [isolatedCall_cached_eq spec fs0 child mtimeOf boxDir cd sc hcd hscan hdisj]
    simp only [hload1]
    exact runBox_success_eq spec fs0 child mtimeOf boxDir sc (envStrs spec.typedEnv)
      _ _ contentOf hchild hnd htmpn
  -- facts about the run-1 filesystem
  have hmfnotout : manifestPath cd spec.hashName (sc.updates ++ envUpdates spec.typedEnv)
      ∉ sc.outNames := by
    intro hin
    have h1 := houtcd _ hin
    rw [startsWithStr_of_cdPre cd _ hmfpre] at h1
    exact absurd h1 (by simp)
  have hr1n : ∀ n ∈ sc.outNames,
      fsRead (isolatedCall spec fs0 child mtimeOf boxDir).fs n = some (contentOf n) := by
    intro n hn
    rw [hrun1]
    exact hmv3 n hn
  have hr1mf : fsRead (isolatedCall spec fs0 child mtimeOf boxDir).fs
      (manifestPath cd spec.hashName (sc.updates ++ envUpdates spec.typedEnv))
      = some ((sc.outNames.map (fun n =>
          manifestLine (fileDigest spec.hashName (contentOf n)) (mtimeOf n) n)).flatten) := by
    rw [hrun1]
    show fsRead _ _ = _
    rw [hmv4 _ hmfnotout]
    exact hstoreMf
  have hr1reads : ∀ p ∈ sc.reads,
      fsRead (isolatedCall spec fs0 child mtimeOf boxDir).fs p = fsRead fs0 p := by
    intro p hp
    rw [hrun1]
    show fsRead _ _ = _
    rw [hmv4 p (hreads p hp).1]
    exact hframe p (hreads p hp).2
  refine ⟨by rw [hrun1], by rw [hrun1], hr1n, ?_⟩
  -- run 2
  intro child2 mtimeOf2 boxDir2
  have hscan2 : scanAll spec.cacheDir.isSome
      (isolatedCall spec fs0 child mtimeOf boxDir).fs spec.typedArgs spec.extraInputs
      spec.extraOutputs = .ok sc := by
    rw [hsome]
    exact scanAll_congr fs0 _ spec.typedArgs spec.extraInputs spec.extraOutputs sc
      hscan' hr1reads
  have hload2 : tryLoadFromCache (isolatedCall spec fs0 child mtimeOf boxDir).fs
      (manifestPath cd spec.hashName (sc.updates ++ envUpdates spec.typedEnv))
      sc.outNames spec.hashName
      = (true, (isolatedCall spec fs0 child mtimeOf boxDir).fs) :=
    tryLoad_hit _ _ spec.hashName sc.outNames
      (fun n => fileDigest spec.hashName (contentOf n)) mtimeOf contentOf
      hr1mf hnd
      (fun n hn => ⟨sepFree_hashDigest spec.hashName hhn _, hmt n hn, hwfn n hn⟩)
      hr1n (fun n _ => rfl)
  have hrun2 : isolatedCall spec (isolatedCall spec fs0 child mtimeOf boxDir).fs
      child2 mtimeOf2 boxDir2
      = ⟨.ok 0, (isolatedCall spec fs0 child mtimeOf boxDir).fs, false, sc.reads,
          true, false⟩ := by
    rw [isolatedCall_cached_eq spec _ child2 mtimeOf2 boxDir2 cd sc hcd hscan2 hdisj]
    simp only [hload2]
  exact ⟨by rw [hrun2], by rw [hrun2], by rw [hrun2]⟩

/-- The scenario-1/2 invocation: gcc with `-fstack-usage`, declaring both
`foo.o` and (via `extra_outputs`) `foo.su`, with prefix scrubbing on. -/
def c1spec : CallSpec :=
  { typedArgs := [TypedArg.exec "/usr/bin/gcc".toList,
      TypedArg.lit "-fstack-usage".toList, TypedArg.lit "-c".toList,
      TypedArg.infile "foo.c".toList none, TypedArg.lit "-o".toList,
      TypedArg.outfile "foo.o".toList],
    typedEnv := [], extraInputs := [], extraOutputs := ["foo.su".toList],
    cacheDir := some "cache".toList, hashName := "sha256".toList,
    shell := false, timeout := none, stripBox := true }

/-- The initial working directory of the C1 scenario. -/
def c1fs : FS :=
  [("foo.c".toList, "int main;".toList), ("/usr/bin/gcc".toList, "ELF".toList)]

/-- The outputs the child produces in the C1 scenario. -/
def c1content : Str → Str :=
  fun n => if n = "foo.o".toList then "OBJ".toList else "SU".toList

/-- The child of the C1 scenario: exits 0 and produces exactly the declared
outputs. -/
def c1child : List Str → List (Str × Str) → Int × FS :=
  fun _ _ => (0, [("foo.o".toList, "OBJ".toList), ("foo.su".toList, "SU".toList)])

/-- The mtime oracle of the C1 scenario. -/
def c1mtime : Str → Str := fun _ => "100.5".toList

/-- The scan result of the C1 invocation. -/
def c1sc : ScanResult :=
  { updates := ["/usr/bin/gcc".toList, "ELF".toList, "-fstack-usage".toList,
      "-c".toList, "foo.c".toList, "int main;".toList, "-o".toList, "foo.o".toList],
    reads := ["/usr/bin/gcc".toList, "foo.c".toList],
    inNames := ["foo.c".toList],
    outNames := ["foo.o".toList, "foo.su".toList],
    tempNames := [],
    args := ["/usr/bin/gcc".toList, "-fstack-usage".toList, "-c".toList,
      "foo.c".toList, "-o".toList, "../out/foo.o".toList] }

/-- Closed instance of `replay_cache_hit` on the gcc scenario. -/
theorem replay_cache_hit_w :
    (isolatedCall c1spec c1fs c1child c1mtime "/box".toList).result = .ok 0
    ∧ (isolatedCall c1spec c1fs c1child c1mtime "/box".toList).callInvoked = true
    ∧ (∀ n ∈ c1sc.outNames,
        fsRead (isolatedCall c1spec c1fs c1child c1mtime "/box".toList).fs n
          = some (c1content n))
    ∧ ∀ (child2 : List Str → List (Str × Str) → Int × FS) (mtimeOf2 : Str → Str)
        (boxDir2 : Str),
        (isolatedCall c1spec (isolatedCall c1spec c1fs c1child c1mtime "/box".toList).fs
            child2 mtimeOf2 boxDir2).result = .ok 0
        ∧ (isolatedCall c1spec (isolatedCall c1spec c1fs c1child c1mtime "/box".toList).fs
            child2 mtimeOf2 boxDir2).callInvoked = false
        ∧ (isolatedCall c1spec (isolatedCall c1spec c1fs c1child c1mtime "/box".toList).fs
            child2 mtimeOf2 boxDir2).fs
          = (isolatedCall c1spec c1fs c1child c1mtime "/box".toList).fs :=
  replay_cache_hit c1spec c1fs c1child c1mtime "/box".toList "cache".toList c1sc
    c1content rfl (by decide) (by decide) (by decide) (by decide) (by decide)
    (by decide) (by decide) (by decide) (by decide) (by decide)
    (by
      intro p hp
      have h1 : p ≠ "foo.c".toList := by
        rintro rfl
        exact absurd hp (by decide)
      have h2 : p ≠ "/usr/bin/gcc".toList := by
        rintro rfl
        exact absurd hp (by decide)
      show (if "foo.c".toList = p then some "int main;".toList
        else if "/usr/bin/gcc".toList = p then some "ELF".toList else none) = none
      rw [if_neg (Ne.symm h1), if_neg (Ne.symm h2)])

end Cz
